import Mathlib

/-!
# Verification of the reversible-circuit synthesis core of quantum-advantage

This development embeds the gate-synthesis engine of
`src/circuits/digital_circuits.py`, its ancilla allocator
(`src/circuits/ancilla.py`) and the restricted-gate interpreter
(`src/tof_sim.py`) in Lean, and proves (or refutes) the specification
claims about them.

Python generators that lazily emit gates are modelled as functions that
return the flattened gate list together with the updated allocator state;
`raise ValueError(...)` is modelled by `Except String`.
-/

/-- A bit-cell.  `x i` / `y i` are the caller-supplied named qubits from
`get_registers` (`cirq.NamedQubit` with prefixes "x" and "y"), `reg i` an
arbitrary other caller-created named qubit, and `anc i` the `i`-th ancilla
issued by an `AncillaManager` (named `anc{i}` in the source). -/
inductive Cell where
  | x : Nat → Cell
  | y : Nat → Cell
  | reg : Nat → Cell
  | anc : Nat → Cell
deriving DecidableEq, Repr

/-- The classical state replayed by the interpreter: one boolean per cell
(the Python `state` dict). -/
def CState := Cell → Bool

/-- The gate vocabulary.  `X`/`CNOT`/`TOFFOLI` are the closed gate set of
the synthesis core; `Y`/`Z` are the fault-injection gates the interpreter
also accepts; `unsupported` stands for any other cirq gate kind. -/
inductive Gate where
  | X : Cell → Gate
  | CNOT : Cell → Cell → Gate
  | TOFFOLI : Cell → Cell → Cell → Gate
  | Y : Cell → Gate
  | Z : Cell → Gate
  | unsupported : Nat → List Cell → Gate
deriving DecidableEq, Repr

/-- Update one cell of a state. -/
def CState.set (s : CState) (c : Cell) (b : Bool) : CState :=
  fun d => if d = c then b else s d

/-- Flip one cell of a state. -/
def CState.flip (s : CState) (c : Cell) : CState :=
  s.set c (! s c)

/-- The boolean update of the three allowed gates, plus the bit-flip part
of `Y`: the target is flipped iff all controls are 1, i.e. the conjunction
of the controls is xor-ed into the target (as in
`ToffoliSimulator.simulate`).  `Z` and `unsupported` do not change bits. -/
def Gate.apply : Gate → CState → CState
  | .X t, s => s.set t (! s t)
  | .CNOT c t, s => s.set t ((s t).xor (s c))
  | .TOFFOLI c1 c2 t, s => s.set t ((s t).xor (s c1 && s c2))
  | .Y t, s => s.set t (! s t)
  | .Z _, s => s
  | .unsupported _ _, s => s

/-- Replay a flattened gate list, boolean part only. -/
def applyGates (gs : List Gate) (s : CState) : CState :=
  gs.foldl (fun s g => g.apply s) s

/-- Whether a gate belongs to `ToffoliSimulator.allowed_gates`. -/
def Gate.isAllowed : Gate → Bool
  | .X _ | .CNOT _ _ | .TOFFOLI _ _ _ => true
  | _ => false

/-- Whether a gate belongs to `ToffoliSimulator.phase_error_gates`. -/
def Gate.isPhaseError : Gate → Bool
  | .Y _ | .Z _ => true
  | _ => false

/-- One step of `ToffoliSimulator.simulate`: allowed gates update the bits,
`Y`/`Z` update the running phase (`Y` also flips the bit), anything else
raises `ValueError`. -/
def simStep (acc : CState × Int) (g : Gate) : Except String (CState × Int) :=
  match g, acc with
  | .X t, (s, ph) => .ok (s.set t (! s t), ph)
  | .CNOT c t, (s, ph) => .ok (s.set t ((s t).xor (s c)), ph)
  | .TOFFOLI c1 c2 t, (s, ph) => .ok (s.set t ((s t).xor (s c1 && s c2)), ph)
  | .Z t, (s, ph) => .ok (s, if s t then -ph else ph)
  | .Y t, (s, ph) => .ok (s.set t (! s t), if s t then -ph else ph)
  | .unsupported _ _, _ => .error "unsupported gate type"

namespace ToffoliSimulator

/-- `ToffoliSimulator.simulate`: replay the flattened circuit over a state,
returning the final state and the accumulated phase (the state dict is
mutated in place in Python; here it is returned). -/
def simulate (gs : List Gate) (s : CState) : Except String (CState × Int) :=
  gs.foldlM simStep (s, 1)

end ToffoliSimulator

/-- All gates in the list are from the closed `{X, CNOT, TOFFOLI}` set. -/
def supportedOnly (gs : List Gate) : Bool :=
  gs.all Gate.isAllowed

/-- Numeric value of a bit. -/
def bv (b : Bool) : Nat := if b then 1 else 0

/-- `state_to_int`: read a register (least-significant cell first) as an
integer.  (The Python version iterates most-significant first and shifts;
this is the same value.) -/
def regVal (s : CState) : List Cell → Nat
  | [] => 0
  | c :: cs => bv (s c) + 2 * regVal s cs

/-- `AncillaManager`: number of ancillas ever issued, per-index garbage
flag (`Ancilla._isgarbage`), live count and its historical maximum. -/
structure AncillaManager where
  qubits : Nat
  garbage : Nat → Bool
  nActive : Int
  maxAncillas : Int

namespace AncillaManager

/-- `AncillaManager()`. -/
def init : AncillaManager :=
  { qubits := 0, garbage := fun _ => false, nActive := 0, maxAncillas := 0 }

/-- The `n_active` property setter: records a new historical maximum when
exceeded. -/
def setActive (am : AncillaManager) (v : Int) : AncillaManager :=
  { am with nActive := v,
            maxAncillas := if am.maxAncillas < v then v else am.maxAncillas }

/-- `new()`: issue a fresh ancilla. -/
def new (am : AncillaManager) : Cell × AncillaManager :=
  (.anc am.qubits, { am.setActive (am.nActive + 1) with qubits := am.qubits + 1 })

/-- `new_register(n)`: issue `n` fresh ancillas (one `n_active` setter
call, as in the source). -/
def new_register (am : AncillaManager) (n : Nat) : List Cell × AncillaManager :=
  ((List.range n).map (fun i => .anc (am.qubits + i)),
   { am.setActive (am.nActive + n) with qubits := am.qubits + n })

/-- `discard(qubits)`: mark the given ancillas as garbage and decrease the
live count.  The source performs no check whatsoever: cells already
retired are simply marked again and counted again. -/
def discard (am : AncillaManager) (qs : List Cell) : AncillaManager :=
  { am.setActive (am.nActive - qs.length) with
    garbage := fun i => if Cell.anc i ∈ qs then true else am.garbage i }

/-- `all_discarded()`. -/
def all_discarded (am : AncillaManager) : Bool :=
  am.nActive == 0

/-- `max_ancilla_usage()`. -/
def max_ancilla_usage (am : AncillaManager) : Int :=
  am.maxAncillas

end AncillaManager

/-- `int_to_state` for a register of `x`-cells together with zeroed
`y`-cells and ancillas: the initial assignment used by the end-to-end
test scenario. -/
def initState (xval : Nat) : CState
  | .x i => xval.testBit i
  | _ => false

/-- A cell is safe to use as a register operand with respect to an
allocator front `n`: it is not an ancilla that has yet to be issued. -/
def Cell.freshBelow (n : Nat) : Cell → Bool
  | .anc i => decide (i < n)
  | _ => true

/-- All cells of a list are `freshBelow n`. -/
def cellsBelow (n : Nat) (cs : List Cell) : Bool :=
  cs.all (Cell.freshBelow n)

/-- The state assigns 0 to every ancilla at or above the allocator front
`n` (ancillas are initialized to 0 and untouched until issued). -/
def zeroAbove (n : Nat) (s : CState) : Prop :=
  ∀ i, n ≤ i → s (.anc i) = false

/-- Cells outside the ancilla block `[n, n')`: a frame condition for a
synthesis routine run between allocator fronts `n` and `n'`. -/
def Cell.outsideRange (n n' : Nat) : Cell → Prop
  | .anc i => i < n ∨ n' ≤ i
  | _ => True

/-! ## Basic lemmas about states, gates and register values -/

theorem CState.set_same (s : CState) (c : Cell) (b : Bool) : (s.set c b) c = b := by
  simp [CState.set]

theorem CState.set_other (s : CState) (c d : Cell) (b : Bool) (h : d ≠ c) :
    (s.set c b) d = s d := by
  simp [CState.set, h]

theorem CState.flip_same (s : CState) (c : Cell) : (s.flip c) c = ! s c := by
  simp [CState.flip, CState.set]

theorem CState.flip_other (s : CState) (c d : Cell) (h : d ≠ c) :
    (s.flip c) d = s d := by
  simp [CState.flip, CState.set, h]

theorem applyGates_nil (s : CState) : applyGates [] s = s := rfl

theorem applyGates_cons (g : Gate) (gs : List Gate) (s : CState) :
    applyGates (g :: gs) s = applyGates gs (g.apply s) := rfl

theorem applyGates_append (gs1 gs2 : List Gate) (s : CState) :
    applyGates (gs1 ++ gs2) s = applyGates gs2 (applyGates gs1 s) := by
  simp [applyGates, List.foldl_append]

theorem supportedOnly_append (gs1 gs2 : List Gate) :
    supportedOnly (gs1 ++ gs2) = (supportedOnly gs1 && supportedOnly gs2) := by
  simp [supportedOnly, List.all_append]

/-- On programs drawn purely from the closed gate set, the interpreter
succeeds, computes the boolean replay, and reports phase `+1`. -/
theorem simulate_of_supported (gs : List Gate) (s : CState)
    (h : supportedOnly gs = true) :
    ToffoliSimulator.simulate gs s = .ok (applyGates gs s, 1) := by
  induction gs generalizing s with
  | nil => rfl
  | cons g gs ih =>
    simp only [supportedOnly, List.all_cons, Bool.and_eq_true] at h
    obtain ⟨hg, hgs⟩ := h
    cases g with
    | X t =>
      simpa [ToffoliSimulator.simulate, simStep, applyGates_cons, Gate.apply] using ih _ hgs
    | CNOT c t =>
      simpa [ToffoliSimulator.simulate, simStep, applyGates_cons, Gate.apply] using ih _ hgs
    | TOFFOLI c1 c2 t =>
      simpa [ToffoliSimulator.simulate, simStep, applyGates_cons, Gate.apply] using ih _ hgs
    | Y t => simp [Gate.isAllowed] at hg
    | Z t => simp [Gate.isAllowed] at hg
    | unsupported n qs => simp [Gate.isAllowed] at hg

theorem regVal_nil (s : CState) : regVal s [] = 0 := rfl

theorem regVal_cons (s : CState) (c : Cell) (cs : List Cell) :
    regVal s (c :: cs) = bv (s c) + 2 * regVal s cs := rfl

theorem bv_le_one (b : Bool) : bv b ≤ 1 := by cases b <;> simp [bv]

theorem regVal_lt (s : CState) (cs : List Cell) : regVal s cs < 2 ^ cs.length := by
  induction cs with
  | nil => simp [regVal]
  | cons c cs ih =>
    simp only [regVal, List.length_cons, pow_succ]
    by_cases h : s c <;> simp [h, bv] <;> omega

/-- Congruence: the value of a register depends only on the state at its
cells. -/
theorem regVal_congr {s t : CState} {cs : List Cell}
    (h : ∀ c ∈ cs, s c = t c) : regVal s cs = regVal t cs := by
  induction cs with
  | nil => rfl
  | cons c cs ih =>
    simp only [regVal, h c (by simp)]
    rw [ih (fun d hd => h d (List.mem_cons_of_mem _ hd))]

theorem regVal_append (s : CState) (cs ds : List Cell) :
    regVal s (cs ++ ds) = regVal s cs + 2 ^ cs.length * regVal s ds := by
  induction cs with
  | nil => simp [regVal]
  | cons c cs ih => simp [regVal, ih, pow_succ]; ring

theorem regVal_take_add_drop (s : CState) (cs : List Cell) (k : Nat) :
    regVal s cs = regVal s (cs.take k) + 2 ^ (cs.take k).length * regVal s (cs.drop k) := by
  conv_lhs => rw [← List.take_append_drop k cs]
  exact regVal_append s _ _

/-- Reading a register bit by bit: cell `k` holds bit `k` of the value. -/
theorem regVal_testBit (s : CState) (cs : List Cell) (k : Nat) (hk : k < cs.length) :
    s (cs.get ⟨k, hk⟩) = (regVal s cs).testBit k := by
  induction cs generalizing k with
  | nil => simp at hk
  | cons c cs ih =>
    cases k with
    | zero =>
      simp only [List.get, regVal, Nat.testBit_zero]
      rcases h : s c <;> simp [h, bv] <;> omega
    | succ k =>
      simp only [List.get]
      rw [ih k (by simpa using hk), regVal, Nat.testBit_succ]
      congr 1
      rcases h : s c <;> simp [h, bv] <;> omega

/-! ## Allocator bookkeeping lemmas -/

theorem AncillaManager.new_fst (am : AncillaManager) : am.new.1 = .anc am.qubits := rfl

theorem AncillaManager.new_qubits (am : AncillaManager) :
    am.new.2.qubits = am.qubits + 1 := rfl

theorem AncillaManager.new_active (am : AncillaManager) :
    am.new.2.nActive = am.nActive + 1 := rfl

theorem AncillaManager.new_register_fst (am : AncillaManager) (n : Nat) :
    (am.new_register n).1 = (List.range n).map (fun i => .anc (am.qubits + i)) := rfl

theorem AncillaManager.new_register_qubits (am : AncillaManager) (n : Nat) :
    (am.new_register n).2.qubits = am.qubits + n := rfl

theorem AncillaManager.new_register_active (am : AncillaManager) (n : Nat) :
    (am.new_register n).2.nActive = am.nActive + n := rfl

theorem AncillaManager.discard_qubits (am : AncillaManager) (qs : List Cell) :
    (am.discard qs).qubits = am.qubits := rfl

theorem AncillaManager.discard_active (am : AncillaManager) (qs : List Cell) :
    (am.discard qs).nActive = am.nActive - qs.length := rfl

/-- Helper for zero-extended registers: a register reads back 0 iff each of
its cells is 0. -/
theorem regVal_eq_zero_iff (s : CState) (R : List Cell) :
    regVal s R = 0 ↔ ∀ c ∈ R, s c = false := by
  induction R with
  | nil => simp [regVal]
  | cons c cs ih =>
    simp only [regVal, List.mem_cons]
    constructor
    · intro h
      have h1 : bv (s c) = 0 ∧ regVal s cs = 0 := by omega
      rcases h1 with ⟨h1, h2⟩
      have hc : s c = false := by cases hsc : s c <;> simp [hsc, bv] at h1 ⊢
      exact fun d hd => hd.elim (fun e => e ▸ hc) (fun e => (ih.mp h2) d e)
    · intro h
      rw [h c (Or.inl rfl), ih.mpr (fun d hd => h d (Or.inr hd))]
      rfl

/-! ## Primitive gates: `half_adder`, `full_adder`, `copy_register` -/

/-- `half_adder(A, B, Cout)`. -/
def half_adder (A B Cout : Cell) : List Gate :=
  [.TOFFOLI A B Cout, .CNOT A B]

/-- `full_adder(A, B, Cin, Cout)`. -/
def full_adder (A B Cin Cout : Cell) : List Gate :=
  [.TOFFOLI A B Cout, .CNOT A B, .TOFFOLI B Cin Cout, .CNOT Cin B]

/-- `copy_register(A, B)`: CNOT per aligned pair; `SizeError` if `B` is
shorter than `A`. -/
def copy_register (A B : List Cell) : Except String (List Gate) :=
  if A.length > B.length then .error "register B must be at least as long as A"
  else .ok ((A.zip B).map (fun p => .CNOT p.1 p.2))

theorem half_adder_supported (a b cout : Cell) : supportedOnly (half_adder a b cout) = true := rfl

theorem full_adder_supported (a b cin cout : Cell) :
    supportedOnly (full_adder a b cin cout) = true := rfl

/-- Pointwise semantics of the half adder. -/
theorem half_adder_apply (a b cout : Cell) (s : CState)
    (hab : a ≠ b) (hac : a ≠ cout) (hbc : b ≠ cout) (c : Cell) :
    applyGates (half_adder a b cout) s c =
      if c = b then (s b).xor (s a)
      else if c = cout then (s cout).xor (s a && s b)
      else s c := by
  simp only [half_adder, applyGates, List.foldl, Gate.apply]
  rw [CState.set_other s cout b _ hbc, CState.set_other s cout a _ hac]
  by_cases hcb : c = b
  · subst hcb; rw [CState.set_same]; simp
  · rw [CState.set_other _ _ _ _ hcb]
    by_cases hcc : c = cout
    · subst hcc; rw [CState.set_same]; simp [hcb]
    · rw [CState.set_other _ _ _ _ hcc]; simp [hcb, hcc]

/-- Pointwise semantics of the full adder. -/
theorem full_adder_apply (a b cin cout : Cell) (s : CState)
    (hab : a ≠ b) (hac : a ≠ cout) (hbc : b ≠ cout)
    (hnb : cin ≠ b) (hnc : cin ≠ cout) (c : Cell) :
    applyGates (full_adder a b cin cout) s c =
      if c = b then ((s b).xor (s a)).xor (s cin)
      else if c = cout then
        ((s cout).xor (s a && s b)).xor (((s b).xor (s a)) && s cin)
      else s c := by
  simp only [full_adder, applyGates, List.foldl, Gate.apply, CState.set]
  by_cases hcb : c = b <;> by_cases hcc : c = cout <;>
    simp_all [Ne.symm hab, Ne.symm hac, Ne.symm hbc, Ne.symm hnb, Ne.symm hnc]

/-- Sum bit of three bits, numerically. -/
theorem bv_sum3 (x y z : Bool) : bv ((x.xor y).xor z) = (bv x + bv y + bv z) % 2 := by
  cases x <;> cases y <;> cases z <;> rfl

/-- Carry bit of three bits, numerically (in the exact shape produced by
`full_adder` on a zeroed carry-out cell). -/
theorem bv_carry3 (x y z : Bool) : bv ((x && y).xor ((y.xor x) && z)) = (bv x + bv y + bv z) / 2 := by
  cases x <;> cases y <;> cases z <;> rfl

/-- Sum bit of two bits, numerically. -/
theorem bv_sum2 (x y : Bool) : bv (x.xor y) = (bv x + bv y) % 2 := by
  cases x <;> cases y <;> rfl

/-- Carry bit of two bits, numerically. -/
theorem bv_carry2 (x y : Bool) : bv (x && y) = (bv x + bv y) / 2 := by
  cases x <;> cases y <;> rfl

/-! ## Hygiene helpers: freshness and frame ranges -/

theorem Cell.freshBelow_mono {n n' : Nat} (h : n ≤ n') {c : Cell}
    (hc : c.freshBelow n = true) : c.freshBelow n' = true := by
  cases c <;> simp [Cell.freshBelow] at hc ⊢ <;> omega

theorem cellsBelow_mono {n n' : Nat} (h : n ≤ n') {cs : List Cell}
    (hc : cellsBelow n cs = true) : cellsBelow n' cs = true := by
  simp only [cellsBelow, List.all_eq_true] at hc ⊢
  exact fun c hm => Cell.freshBelow_mono h (hc c hm)

theorem cellsBelow_mem {n : Nat} {cs : List Cell} {c : Cell}
    (h : cellsBelow n cs = true) (hm : c ∈ cs) : c.freshBelow n = true := by
  simp only [cellsBelow, List.all_eq_true] at h
  exact h c hm

theorem Cell.freshBelow_ne_anc {c : Cell} {n j : Nat}
    (hc : c.freshBelow n = true) (h : n ≤ j) : c ≠ .anc j := by
  cases c <;> simp [Cell.freshBelow] at hc ⊢ <;> omega

theorem Cell.freshBelow_outsideRange {c : Cell} {n n' : Nat}
    (h : c.freshBelow n = true) : c.outsideRange n n' := by
  cases c <;> simp [Cell.freshBelow] at h ⊢ <;> simp [Cell.outsideRange] <;> omega

theorem Cell.outsideRange_mono_left {c : Cell} {q q1 q2 : Nat} (h : q ≤ q1)
    (hc : c.outsideRange q q2) : c.outsideRange q1 q2 := by
  cases c <;> simp [Cell.outsideRange] at hc ⊢ <;> omega

theorem Cell.outsideRange_narrow {c : Cell} {q q1 q2 : Nat} (h : q1 ≤ q2)
    (hc : c.outsideRange q q2) : c.outsideRange q q1 := by
  cases c <;> simp [Cell.outsideRange] at hc ⊢ <;> omega

theorem Cell.outsideRange_ne_anc {c : Cell} {n n' j : Nat}
    (h : c.outsideRange n n') (hj : n ≤ j) (hj' : j < n') : c ≠ .anc j := by
  cases c <;> simp [Cell.outsideRange] at h ⊢ <;> omega

theorem Cell.anc_outsideRange {i n n' : Nat} (h : i < n ∨ n' ≤ i) :
    Cell.outsideRange n n' (.anc i) := h

/-! ## Binary-addition micro lemmas -/

theorem bit_double_div (u v k : Nat) (hu : u ≤ 1) :
    (u + 2 * v) / 2 ^ (k + 1) = v / 2 ^ k := by
  have h2 : (u + 2 * v) / 2 = v := by omega
  rw [pow_succ, Nat.mul_comm (2 ^ k) 2, ← Nat.div_div_eq_div_mul, h2]

theorem bit_double_mod (u v k : Nat) (hu : u ≤ 1) :
    u + 2 * (v % 2 ^ k) = (u + 2 * v) % 2 ^ (k + 1) := by
  have h1 := Nat.mod_add_div v (2 ^ k)
  have h2 := Nat.mod_add_div (u + 2 * v) (2 ^ (k + 1))
  have h3 : (u + 2 * v) / 2 ^ (k + 1) = v / 2 ^ k := bit_double_div u v k hu
  rw [h3] at h2
  have h4 : (2 : Nat) ^ (k + 1) = 2 * 2 ^ k := by rw [pow_succ]; ring
  rw [h4] at h2 ⊢
  have h5 : 2 * 2 ^ k * (v / 2 ^ k) = 2 * (2 ^ k * (v / 2 ^ k)) := by ring
  rw [h5] at h2
  omega

/-- Splitting one column off a ripple-carry addition: bit values `a0 b0 c0`
at the current column, `x y` the values of the remaining registers. -/
theorem add_column_mod (a0 b0 c0 x y k : Nat)
    (ha : a0 ≤ 1) (hb : b0 ≤ 1) (hc : c0 ≤ 1) :
    (a0 + b0 + c0) % 2 + 2 * ((x + y + (a0 + b0 + c0) / 2) % 2 ^ k) =
      ((a0 + 2 * x) + (b0 + 2 * y) + c0) % 2 ^ (k + 1) := by
  have h1 : (a0 + 2 * x) + (b0 + 2 * y) + c0 =
      (a0 + b0 + c0) % 2 + 2 * (x + y + (a0 + b0 + c0) / 2) := by omega
  rw [h1, ← bit_double_mod _ _ _ (by omega)]

theorem add_column_div (a0 b0 c0 x y k : Nat)
    (ha : a0 ≤ 1) (hb : b0 ≤ 1) (hc : c0 ≤ 1) :
    ((a0 + 2 * x) + (b0 + 2 * y) + c0) / 2 ^ (k + 1) =
      (x + y + (a0 + b0 + c0) / 2) / 2 ^ k := by
  have h1 : (a0 + 2 * x) + (b0 + 2 * y) + c0 =
      (a0 + b0 + c0) % 2 + 2 * (x + y + (a0 + b0 + c0) / 2) := by omega
  rw [h1, bit_double_div _ _ _ (by omega)]

/-! ## `add_int` -/

/-- Main loop of `add_int`: one (half/full) adder per column of `A`,
stopping at the end of `B` (`if i >= len(B): break`), threading the live
carry cell; the previous carry is retired as each new one is produced.
Returns the gates, the final live carry and the allocator. -/
def addIntLoop : List Cell → List Cell → Cell → AncillaManager →
    List Gate × Cell × AncillaManager
  | [], _, cin, am => ([], cin, am)
  | _ :: _, [], cin, am => ([], cin, am)
  | a :: A, b :: B, cin, am =>
    let cout := am.new.1
    let am1 := am.new.2
    let g := full_adder a b cin cout
    let am2 := am1.discard [cin]
    let r := addIntLoop A B cout am2
    (g ++ r.1, r.2.1, r.2.2)

/-- Trailing loop of `add_int`: propagate the final carry to the end of
`B` with half adders. -/
def addCarryLoop : List Cell → Cell → AncillaManager →
    List Gate × Cell × AncillaManager
  | [], cin, am => ([], cin, am)
  | b :: B, cin, am =>
    let cout := am.new.1
    let am1 := am.new.2
    let g := half_adder cin b cout
    let am2 := am1.discard [cin]
    let r := addCarryLoop B cout am2
    (g ++ r.1, r.2.1, r.2.2)

/-- `add_int(A, B, ancillas, allow_overflow)`: ripple-carry addition of
register `A` into register `B` in place.  The first column uses a half
adder (`cin is None`), later columns full adders; then the carry is
propagated to the end of `B` and the last carry retired.  When `A` is
empty (or `B` is empty with `allow_overflow`), the Python generator
reaches a gate or a `discard` with `cin = None` and crashes (`cirq`
rejects `None` qubits); this is modelled as an error. -/
def add_int (A B : List Cell) (am : AncillaManager) (allow_overflow : Bool) :
    Except String (List Gate × AncillaManager) :=
  if !allow_overflow && decide (A.length > B.length) then
    .error "register A too long to add to register B"
  else
    match A, B with
    | a :: A, b :: B =>
      let cout := am.new.1
      let am1 := am.new.2
      let g0 := half_adder a b cout
      let r1 := addIntLoop A B cout am1
      let r2 := addCarryLoop (B.drop A.length) r1.2.1 r1.2.2
      let am4 := r2.2.2.discard [r2.2.1]
      .ok (g0 ++ r1.1 ++ r2.1, am4)
    | _, _ => .error "TypeError: add_int with an empty register"

theorem cellsBelow_cons (n : Nat) (c : Cell) (cs : List Cell) :
    cellsBelow n (c :: cs) = (c.freshBelow n && cellsBelow n cs) := by
  simp [cellsBelow]

theorem anc_not_mem_of_cellsBelow {n j : Nat} {cs : List Cell}
    (h : cellsBelow n cs = true) (hj : n ≤ j) : Cell.anc j ∉ cs := by
  intro hmem
  exact Cell.freshBelow_ne_anc (cellsBelow_mem h hmem) hj rfl

/-- Full behaviour of the main `add_int` loop: over the first
`min |A| |B|` columns it adds `A` into `B` with an incoming carry, leaves
a final carry cell, touches nothing else, and keeps future ancillas
zeroed. -/
theorem addIntLoop_spec (A : List Cell) :
    ∀ (B : List Cell) (cin : Cell) (am : AncillaManager),
    B.Nodup → (∀ c ∈ A, c ∉ B) →
    cellsBelow am.qubits A = true → cellsBelow am.qubits B = true →
    cin ∉ B → cin.freshBelow am.qubits = true →
    (addIntLoop A B cin am).2.2.qubits = am.qubits + min A.length B.length ∧
    (addIntLoop A B cin am).2.2.nActive = am.nActive ∧
    supportedOnly (addIntLoop A B cin am).1 = true ∧
    ((addIntLoop A B cin am).2.1 = cin ∨
      ∃ j, am.qubits ≤ j ∧ (addIntLoop A B cin am).2.1 = .anc j) ∧
    (addIntLoop A B cin am).2.1.freshBelow (addIntLoop A B cin am).2.2.qubits = true ∧
    ∀ s : CState, zeroAbove am.qubits s →
      regVal (applyGates (addIntLoop A B cin am).1 s) (B.take (min A.length B.length)) =
        (regVal s (A.take (min A.length B.length)) +
         regVal s (B.take (min A.length B.length)) + bv (s cin)) %
          2 ^ min A.length B.length ∧
      bv (applyGates (addIntLoop A B cin am).1 s (addIntLoop A B cin am).2.1) =
        (regVal s (A.take (min A.length B.length)) +
         regVal s (B.take (min A.length B.length)) + bv (s cin)) /
          2 ^ min A.length B.length ∧
      (∀ c : Cell, c ∉ B.take (min A.length B.length) →
        c ≠ (addIntLoop A B cin am).2.1 →
        Cell.outsideRange am.qubits (addIntLoop A B cin am).2.2.qubits c →
        applyGates (addIntLoop A B cin am).1 s c = s c) ∧
      zeroAbove (addIntLoop A B cin am).2.2.qubits
        (applyGates (addIntLoop A B cin am).1 s) := by
  induction A with
  | nil =>
    intro B cin am _ _ _ _ _ hcf
    refine ⟨by simp [addIntLoop], by simp [addIntLoop], rfl, Or.inl rfl, hcf, ?_⟩
    intro s _
    refine ⟨by simp [addIntLoop, regVal, Nat.mod_one], ?_, ?_, ?_⟩
    · simp [addIntLoop, applyGates, regVal, Nat.div_one]
    · intro c _ _ _; simp [addIntLoop, applyGates]
    · intro i hi; simpa [addIntLoop, applyGates] using ‹zeroAbove am.qubits s› i hi
  | cons a A ih =>
    intro B cin am hB hAB hbelA hbelB hcinB hcf
    cases B with
    | nil =>
      refine ⟨by simp [addIntLoop], by simp [addIntLoop], rfl, Or.inl rfl, hcf, ?_⟩
      intro s _
      refine ⟨by simp [addIntLoop, regVal, Nat.mod_one], ?_, ?_, ?_⟩
      · simp [addIntLoop, applyGates, regVal, Nat.div_one]
      · intro c _ _ _; simp [addIntLoop, applyGates]
      · intro i hi; simpa [addIntLoop, applyGates] using ‹zeroAbove am.qubits s› i hi
    | cons b B =>
      -- unpack hygiene
      rw [cellsBelow_cons, Bool.and_eq_true] at hbelA hbelB
      obtain ⟨hafr, hbelA⟩ := hbelA
      obtain ⟨hbfr, hbelB⟩ := hbelB
      rw [List.nodup_cons] at hB
      obtain ⟨hbB, hB⟩ := hB
      have hab : a ≠ b := by
        have := hAB a (by simp)
        simp only [List.mem_cons, not_or] at this
        exact this.1
      have haB : a ∉ B := by
        have := hAB a (by simp)
        simp only [List.mem_cons, not_or] at this
        exact this.2
      have hAB' : ∀ c ∈ A, c ∉ B := by
        intro c hc
        have := hAB c (by simp [hc])
        simp only [List.mem_cons, not_or] at this
        exact this.2
      have hAb : ∀ c ∈ A, c ≠ b := by
        intro c hc
        have := hAB c (by simp [hc])
        simp only [List.mem_cons, not_or] at this
        exact this.1
      have hcin_b : cin ≠ b := by
        simp only [List.mem_cons, not_or] at hcinB
        exact hcinB.1
      have hcin_B : cin ∉ B := by
        simp only [List.mem_cons, not_or] at hcinB
        exact hcinB.2
      -- the fresh carry-out cell and the updated manager
      set q := am.qubits with hq
      have hcout1 : am.new.1 = Cell.anc q := rfl
      set am2 : AncillaManager := (am.new.2).discard [cin] with ham2
      have ham2q : am2.qubits = q + 1 := rfl
      have ham2a : am2.nActive = am.nActive := by
        rw [ham2, AncillaManager.discard_active, AncillaManager.new_active]
        simp
      -- the recursive call
      have ihs := ih B (Cell.anc q) am2 hB hAB'
        (by rw [ham2q]; exact cellsBelow_mono (Nat.le_succ q) hbelA)
        (by rw [ham2q]; exact cellsBelow_mono (Nat.le_succ q) hbelB)
        (anc_not_mem_of_cellsBelow hbelB (le_refl q))
        (by rw [ham2q]; simp [Cell.freshBelow])
      obtain ⟨ihq, iha, ihsup, ihfin, ihff, ihsem⟩ := ihs
      have hred : addIntLoop (a :: A) (b :: B) cin am =
          (full_adder a b cin (Cell.anc q) ++ (addIntLoop A B (Cell.anc q) am2).1,
           (addIntLoop A B (Cell.anc q) am2).2.1,
           (addIntLoop A B (Cell.anc q) am2).2.2) := rfl
      set r := addIntLoop A B (Cell.anc q) am2 with hr
      set k := min A.length B.length with hk
      have hmin : min (a :: A).length (b :: B).length = k + 1 := by
        simp [List.length_cons, Nat.succ_min_succ]
      have hqout : r.2.2.qubits = q + (k + 1) := by rw [ihq, ham2q]; omega
      refine ⟨by rw [hred, hmin]; exact hqout, ?_, ?_, ?_, ?_, ?_⟩
      · rw [hred]
        show r.2.2.nActive = am.nActive
        rw [iha, ham2a]
      · rw [hred]
        show supportedOnly (full_adder a b cin (Cell.anc q) ++ r.1) = true
        rw [supportedOnly_append, full_adder_supported, ihsup]
        rfl
      · rw [hred]
        rcases ihfin with h | ⟨j, hj, hfj⟩
        · exact Or.inr ⟨q, le_refl q, h⟩
        · exact Or.inr ⟨j, by rw [ham2q] at hj; omega, hfj⟩
      · rw [hred]; exact ihff
      · intro s hz
        rw [hred]
        -- distinctness facts for the full adder
        have hac : a ≠ Cell.anc q := Cell.freshBelow_ne_anc hafr (le_refl q)
        have hbc : b ≠ Cell.anc q := Cell.freshBelow_ne_anc hbfr (le_refl q)
        have hnc : cin ≠ Cell.anc q := Cell.freshBelow_ne_anc hcf (le_refl q)
        have h_s1 := full_adder_apply a b cin (Cell.anc q) s hab hac hbc hcin_b hnc
        set s1 := applyGates (full_adder a b cin (Cell.anc q)) s with hs1
        have hs1b : s1 b = ((s b).xor (s a)).xor (s cin) := by
          rw [h_s1 b]; simp
        have hs1cout : s1 (Cell.anc q) = (s a && s b).xor (((s b).xor (s a)) && s cin) := by
          rw [h_s1 (Cell.anc q)]
          have : s (Cell.anc q) = false := hz q (le_refl q)
          simp [Ne.symm hbc, this]
        have hs1other : ∀ c : Cell, c ≠ b → c ≠ Cell.anc q → s1 c = s c := by
          intro c h1 h2
          rw [h_s1 c]; simp [h1, h2]
        have hz1 : zeroAbove am2.qubits s1 := by
          intro i hi
          rw [ham2q] at hi
          rw [hs1other (Cell.anc i)
            (Ne.symm (Cell.freshBelow_ne_anc hbfr (by omega)))
            (by simp; omega)]
          exact hz i (by omega)
        obtain ⟨ihVB, ihVC, ihFR, ihZ⟩ := ihsem s1 hz1
        -- transfer register values from s1 back to s
        have hA1 : regVal s1 (A.take k) = regVal s (A.take k) := by
          apply regVal_congr
          intro c hc
          have hcA : c ∈ A := List.take_subset k A hc
          exact hs1other c (hAb c hcA)
            (Cell.freshBelow_ne_anc (cellsBelow_mem hbelA hcA) (le_refl q))
        have hB1 : regVal s1 (B.take k) = regVal s (B.take k) := by
          apply regVal_congr
          intro c hc
          have hcB : c ∈ B := List.take_subset k B hc
          exact hs1other c (fun h => hbB (h ▸ hcB))
            (Cell.freshBelow_ne_anc (cellsBelow_mem hbelB hcB) (le_refl q))
        have hcoutv : bv (s1 (Cell.anc q)) = (bv (s a) + bv (s b) + bv (s cin)) / 2 := by
          rw [hs1cout, bv_carry3]
        have hsum : bv (s1 b) = (bv (s a) + bv (s b) + bv (s cin)) % 2 := by
          rw [hs1b, bv_sum3]
          omega
        -- the final carry cell is not b
        have hfinb : b ≠ r.2.1 := by
          rcases ihfin with h | ⟨j, hj, hfj⟩
          · rw [h]; exact hbc
          · rw [hfj]
            exact Cell.freshBelow_ne_anc hbfr (by rw [ham2q] at hj; omega)
        have hs2b : applyGates r.1 s1 b = s1 b := by
          apply ihFR b (fun hbm => hbB (List.take_subset k B hbm)) hfinb
          exact Cell.freshBelow_outsideRange (Cell.freshBelow_mono (by omega) hbfr)
        have happ : applyGates (full_adder a b cin (Cell.anc q) ++ r.1) s =
            applyGates r.1 s1 := by
          rw [applyGates_append, hs1]
        have htakeA : regVal s ((a :: A).take (k + 1)) = bv (s a) + 2 * regVal s (A.take k) := by
          rw [List.take_succ_cons, regVal_cons]
        have htakeB : regVal s ((b :: B).take (k + 1)) = bv (s b) + 2 * regVal s (B.take k) := by
          rw [List.take_succ_cons, regVal_cons]
        refine ⟨?_, ?_, ?_, ?_⟩
        · rw [hmin, happ, List.take_succ_cons, regVal_cons, hs2b, ihVB, hA1, hB1]
          rw [regVal_cons s b (List.take k B), hsum, hcoutv]
          exact add_column_mod _ _ _ _ _ _ (bv_le_one _) (bv_le_one _) (bv_le_one _)
        · rw [hmin, happ, ihVC, hA1, hB1, hcoutv, List.take_succ_cons, List.take_succ_cons,
            regVal_cons s a (List.take k A), regVal_cons s b (List.take k B)]
          exact (add_column_div _ _ _ _ _ _ (bv_le_one _) (bv_le_one _) (bv_le_one _)).symm
        · intro c hcB hcfin hcout
          rw [hmin] at hcB
          rw [List.take_succ_cons, List.mem_cons, not_or] at hcB
          obtain ⟨hcb, hcB⟩ := hcB
          rw [happ, ihFR c hcB hcfin
            (Cell.outsideRange_mono_left (by rw [ham2q]; omega) hcout)]
          refine hs1other c hcb ?_
          have h1 : Cell.outsideRange q r.2.2.qubits c := hcout
          exact Cell.outsideRange_ne_anc h1 (le_refl q) (by rw [hqout]; omega)
        · rw [happ]; exact ihZ

theorem base_block_mod (u v k d : Nat) (hu : u < 2 ^ k) :
    (u + 2 ^ k * v) % 2 ^ (k + d) = u + 2 ^ k * (v % 2 ^ d) := by
  have hd : (0:Nat) < 2 ^ d := pow_pos (by norm_num) d
  have hpow : (2:Nat) ^ (k + d) = 2 ^ k * 2 ^ d := pow_add 2 k d
  have h2 : v % 2 ^ d < 2 ^ d := Nat.mod_lt _ hd
  have hsplit : 2 ^ k * 2 ^ d = 2 ^ k * (2 ^ d - 1) + 2 ^ k := by
    rw [← Nat.mul_succ]; congr 1; omega
  have h4 : 2 ^ k * (v % 2 ^ d) ≤ 2 ^ k * (2 ^ d - 1) :=
    Nat.mul_le_mul_left _ (by omega)
  have h3 : u + 2 ^ k * (v % 2 ^ d) < 2 ^ k * 2 ^ d := by omega
  have h6 : u + 2 ^ k * v = (u + 2 ^ k * (v % 2 ^ d)) + (2 ^ k * 2 ^ d) * (v / 2 ^ d) := by
    have h7 : 2 ^ k * v = 2 ^ k * (v % 2 ^ d) + 2 ^ k * (2 ^ d * (v / 2 ^ d)) := by
      rw [← Nat.mul_add]
      congr 1
      have := Nat.mod_add_div v (2 ^ d)
      omega
    rw [h7, ← Nat.mul_assoc]
    ring
  rw [hpow, h6, Nat.add_mul_mod_self_left, Nat.mod_eq_of_lt h3]

theorem block_mod (M D k d : Nat) :
    (M + 2 ^ k * D) % 2 ^ (k + d) = M % 2 ^ k + 2 ^ k * ((D + M / 2 ^ k) % 2 ^ d) := by
  have hk : (0:Nat) < 2 ^ k := pow_pos (by norm_num) k
  have h1 := Nat.mod_add_div M (2 ^ k)
  have h2 : M + 2 ^ k * D = M % 2 ^ k + 2 ^ k * (D + M / 2 ^ k) := by
    rw [Nat.mul_add]
    omega
  rw [h2, base_block_mod _ _ _ _ (Nat.mod_lt _ hk)]

/-- The value identity behind `add_int`: one half-adder column, a block of
full-adder columns, then a block of carry-propagation columns. -/
theorem add_int_arith (a0 b0 X Y D k d : Nat) (ha : a0 ≤ 1) (hb : b0 ≤ 1) :
    (a0 + b0) % 2 +
      2 * ((X + Y + (a0 + b0) / 2) % 2 ^ k +
           2 ^ k * ((D + (X + Y + (a0 + b0) / 2) / 2 ^ k) % 2 ^ d)) =
    (a0 + 2 * X + (b0 + 2 * (Y + 2 ^ k * D))) % 2 ^ (k + d + 1) := by
  have h1 : a0 + 2 * X + (b0 + 2 * (Y + 2 ^ k * D)) =
      (a0 + b0) % 2 + 2 * ((X + Y + (a0 + b0) / 2) + 2 ^ k * D) := by
    have h2 := Nat.mod_add_div (a0 + b0) 2
    have h3 : 2 * ((X + Y + (a0 + b0) / 2) + 2 ^ k * D) =
        2 * X + 2 * Y + 2 * ((a0 + b0) / 2) + 2 * (2 ^ k * D) := by ring
    have h4 : 2 * (Y + 2 ^ k * D) = 2 * Y + 2 * (2 ^ k * D) := by ring
    omega
  rw [h1, ← bit_double_mod _ _ (k + d) (by omega), block_mod]

theorem add_column2_mod (b0 c0 y k : Nat) (hb : b0 ≤ 1) (hc : c0 ≤ 1) :
    (b0 + c0) % 2 + 2 * ((y + (b0 + c0) / 2) % 2 ^ k) =
      (b0 + 2 * y + c0) % 2 ^ (k + 1) := by
  have h1 : b0 + 2 * y + c0 = (b0 + c0) % 2 + 2 * (y + (b0 + c0) / 2) := by omega
  rw [h1, ← bit_double_mod _ _ _ (by omega)]

/-- Full behaviour of the trailing carry loop of `add_int`. -/
theorem addCarryLoop_spec (B : List Cell) :
    ∀ (cin : Cell) (am : AncillaManager),
    B.Nodup →
    cellsBelow am.qubits B = true →
    cin ∉ B → cin.freshBelow am.qubits = true →
    (addCarryLoop B cin am).2.2.qubits = am.qubits + B.length ∧
    (addCarryLoop B cin am).2.2.nActive = am.nActive ∧
    supportedOnly (addCarryLoop B cin am).1 = true ∧
    ((addCarryLoop B cin am).2.1 = cin ∨
      ∃ j, am.qubits ≤ j ∧ (addCarryLoop B cin am).2.1 = .anc j) ∧
    (addCarryLoop B cin am).2.1.freshBelow (addCarryLoop B cin am).2.2.qubits = true ∧
    ∀ s : CState, zeroAbove am.qubits s →
      regVal (applyGates (addCarryLoop B cin am).1 s) B =
        (regVal s B + bv (s cin)) % 2 ^ B.length ∧
      (∀ c : Cell, c ∉ B → c ≠ (addCarryLoop B cin am).2.1 →
        Cell.outsideRange am.qubits (addCarryLoop B cin am).2.2.qubits c →
        applyGates (addCarryLoop B cin am).1 s c = s c) ∧
      zeroAbove (addCarryLoop B cin am).2.2.qubits
        (applyGates (addCarryLoop B cin am).1 s) := by
  induction B with
  | nil =>
    intro cin am _ _ _ hcf
    refine ⟨by simp [addCarryLoop], by simp [addCarryLoop], rfl, Or.inl rfl, hcf, ?_⟩
    intro s _
    refine ⟨by simp [addCarryLoop, regVal, Nat.mod_one, applyGates], ?_, ?_⟩
    · intro c _ _ _; simp [addCarryLoop, applyGates]
    · intro i hi; simpa [addCarryLoop, applyGates] using ‹zeroAbove am.qubits s› i hi
  | cons b B ih =>
    intro cin am hB hbelB hcinB hcf
    rw [cellsBelow_cons, Bool.and_eq_true] at hbelB
    obtain ⟨hbfr, hbelB⟩ := hbelB
    rw [List.nodup_cons] at hB
    obtain ⟨hbB, hB⟩ := hB
    have hcin_b : cin ≠ b := by
      simp only [List.mem_cons, not_or] at hcinB
      exact hcinB.1
    set q := am.qubits with hq
    set am2 : AncillaManager := (am.new.2).discard [cin] with ham2
    have ham2q : am2.qubits = q + 1 := rfl
    have ham2a : am2.nActive = am.nActive := by
      rw [ham2, AncillaManager.discard_active, AncillaManager.new_active]
      simp
    have ihs := ih (Cell.anc q) am2 hB
      (by rw [ham2q]; exact cellsBelow_mono (Nat.le_succ q) hbelB)
      (anc_not_mem_of_cellsBelow hbelB (le_refl q))
      (by rw [ham2q]; simp [Cell.freshBelow])
    obtain ⟨ihq, iha, ihsup, ihfin, ihff, ihsem⟩ := ihs
    have hred : addCarryLoop (b :: B) cin am =
        (half_adder cin b (Cell.anc q) ++ (addCarryLoop B (Cell.anc q) am2).1,
         (addCarryLoop B (Cell.anc q) am2).2.1,
         (addCarryLoop B (Cell.anc q) am2).2.2) := rfl
    set r := addCarryLoop B (Cell.anc q) am2 with hr
    have hqout : r.2.2.qubits = q + (B.length + 1) := by rw [ihq, ham2q]; omega
    refine ⟨by rw [hred]; simpa using hqout, ?_, ?_, ?_, ?_, ?_⟩
    · rw [hred]
      show r.2.2.nActive = am.nActive
      rw [iha, ham2a]
    · rw [hred]
      show supportedOnly (half_adder cin b (Cell.anc q) ++ r.1) = true
      rw [supportedOnly_append, half_adder_supported, ihsup]
      rfl
    · rw [hred]
      rcases ihfin with h | ⟨j, hj, hfj⟩
      · exact Or.inr ⟨q, le_refl q, h⟩
      · exact Or.inr ⟨j, by rw [ham2q] at hj; omega, hfj⟩
    · rw [hred]; exact ihff
    · intro s hz
      rw [hred]
      have hbc : b ≠ Cell.anc q := Cell.freshBelow_ne_anc hbfr (le_refl q)
      have hnc : cin ≠ Cell.anc q := Cell.freshBelow_ne_anc hcf (le_refl q)
      have h_s1 := half_adder_apply cin b (Cell.anc q) s hcin_b hnc hbc
      set s1 := applyGates (half_adder cin b (Cell.anc q)) s with hs1
      have hs1b : s1 b = (s b).xor (s cin) := by
        rw [h_s1 b]
        simp [Bool.xor_comm]
      have hs1cout : s1 (Cell.anc q) = (s cin && s b) := by
        rw [h_s1 (Cell.anc q)]
        have h0 : s (Cell.anc q) = false := hz q (le_refl q)
        simp [Ne.symm hbc, h0]
      have hs1other : ∀ c : Cell, c ≠ b → c ≠ Cell.anc q → s1 c = s c := by
        intro c h1 h2
        rw [h_s1 c]; simp [h1, h2]
      have hz1 : zeroAbove am2.qubits s1 := by
        intro i hi
        rw [ham2q] at hi
        rw [hs1other (Cell.anc i)
          (Ne.symm (Cell.freshBelow_ne_anc hbfr (by omega)))
          (by simp; omega)]
        exact hz i (by omega)
      obtain ⟨ihVB, ihFR, ihZ⟩ := ihsem s1 hz1
      have hB1 : regVal s1 B = regVal s B := by
        apply regVal_congr
        intro c hc
        exact hs1other c (fun h => hbB (h ▸ hc))
          (Cell.freshBelow_ne_anc (cellsBelow_mem hbelB hc) (le_refl q))
      have hsum : bv (s1 b) = (bv (s b) + bv (s cin)) % 2 := by
        rw [hs1b, bv_sum2]
      have hcoutv : bv (s1 (Cell.anc q)) = (bv (s b) + bv (s cin)) / 2 := by
        rw [hs1cout, bv_carry2]
        omega
      have hfinb : b ≠ r.2.1 := by
        rcases ihfin with h | ⟨j, hj, hfj⟩
        · rw [h]; exact hbc
        · rw [hfj]
          exact Cell.freshBelow_ne_anc hbfr (by rw [ham2q] at hj; omega)
      have hs2b : applyGates r.1 s1 b = s1 b := by
        apply ihFR b hbB hfinb
        exact Cell.freshBelow_outsideRange (Cell.freshBelow_mono (by omega) hbfr)
      have happ : applyGates (half_adder cin b (Cell.anc q) ++ r.1) s =
          applyGates r.1 s1 := by
        rw [applyGates_append, hs1]
      refine ⟨?_, ?_, ?_⟩
      · rw [happ, regVal_cons, hs2b, ihVB, hB1, hsum, hcoutv, regVal_cons s b B]
        have h := add_column2_mod (bv (s b)) (bv (s cin)) (regVal s B) B.length
          (bv_le_one _) (bv_le_one _)
        simpa using h
      · intro c hcB hcfin hcout
        rw [List.mem_cons, not_or] at hcB
        obtain ⟨hcb, hcB⟩ := hcB
        rw [happ, ihFR c hcB hcfin
          (Cell.outsideRange_mono_left (by rw [ham2q]; omega) hcout)]
        refine hs1other c hcb ?_
        have h1 : Cell.outsideRange q r.2.2.qubits c := hcout
        exact Cell.outsideRange_ne_anc h1 (le_refl q) (by rw [hqout]; omega)
      · rw [happ]; exact ihZ

/-- Transfer of register values across a frame condition. -/
theorem regVal_frame_congr {s s' : CState} {R : List Cell} {q q' : Nat} {B : List Cell}
    (FR : ∀ c, c ∉ B → Cell.outsideRange q q' c → s' c = s c)
    (hdis : ∀ c ∈ R, c ∉ B) (hbel : cellsBelow q R = true) :
    regVal s' R = regVal s R :=
  regVal_congr fun c hc => FR c (hdis c hc)
    (Cell.freshBelow_outsideRange (cellsBelow_mem hbel hc))

/-- Correctness of `add_int` (the `allow_overflow = False` form used
throughout the library): `B` becomes `(A + B) mod 2^|B|`, nothing outside
`B` and the scratch ancillas changes, no ancillas leak. -/
theorem add_int_spec (A B : List Cell) (am : AncillaManager)
    (hB : B.Nodup) (hAB : ∀ c ∈ A, c ∉ B)
    (hbelA : cellsBelow am.qubits A = true) (hbelB : cellsBelow am.qubits B = true)
    (hlen : A.length ≤ B.length) (hAne : A ≠ []) :
    ∃ gs am2, add_int A B am false = .ok (gs, am2) ∧
      am.qubits ≤ am2.qubits ∧ am2.nActive = am.nActive ∧
      supportedOnly gs = true ∧
      ∀ s : CState, zeroAbove am.qubits s →
        regVal (applyGates gs s) B = (regVal s A + regVal s B) % 2 ^ B.length ∧
        (∀ c : Cell, c ∉ B → Cell.outsideRange am.qubits am2.qubits c →
          applyGates gs s c = s c) ∧
        zeroAbove am2.qubits (applyGates gs s) := by
  match A, B with
  | [], _ => exact absurd rfl hAne
  | a :: A, [] => simp at hlen
  | a :: A, b :: B =>
    have hlen' : A.length ≤ B.length := by simpa using hlen
    -- hygiene bookkeeping
    rw [cellsBelow_cons, Bool.and_eq_true] at hbelA hbelB
    obtain ⟨hafr, hbelA⟩ := hbelA
    obtain ⟨hbfr, hbelB⟩ := hbelB
    rw [List.nodup_cons] at hB
    obtain ⟨hbB, hB⟩ := hB
    have hab : a ≠ b := by
      have := hAB a (by simp)
      simp only [List.mem_cons, not_or] at this
      exact this.1
    have hAB' : ∀ c ∈ A, c ∉ B := by
      intro c hc
      have := hAB c (by simp [hc])
      simp only [List.mem_cons, not_or] at this
      exact this.2
    have hAb : ∀ c ∈ A, c ≠ b := by
      intro c hc
      have := hAB c (by simp [hc])
      simp only [List.mem_cons, not_or] at this
      exact this.1
    set q := am.qubits with hq
    set am1 : AncillaManager := am.new.2 with ham1
    have ham1q : am1.qubits = q + 1 := rfl
    have ham1a : am1.nActive = am.nActive + 1 := rfl
    -- the main loop
    have l1 := addIntLoop_spec A B (Cell.anc q) am1 hB hAB'
      (by rw [ham1q]; exact cellsBelow_mono (Nat.le_succ q) hbelA)
      (by rw [ham1q]; exact cellsBelow_mono (Nat.le_succ q) hbelB)
      (anc_not_mem_of_cellsBelow hbelB (le_refl q))
      (by rw [ham1q]; simp [Cell.freshBelow])
    set r1 := addIntLoop A B (Cell.anc q) am1 with hr1
    obtain ⟨l1q, l1a, l1sup, l1fin, l1ff, l1sem⟩ := l1
    have hkmin : min A.length B.length = A.length := by omega
    rw [hkmin] at l1q l1sem
    have hr1q : r1.2.2.qubits = q + 1 + A.length := by rw [l1q, ham1q]
    have hfin1anc : ∃ j, q ≤ j ∧ j < r1.2.2.qubits ∧ r1.2.1 = .anc j := by
      rcases l1fin with h | ⟨j, hj, hfj⟩
      · refine ⟨q, le_refl q, ?_, h⟩
        rw [hr1q]; omega
      · refine ⟨j, by rw [ham1q] at hj; omega, ?_, hfj⟩
        have := Cell.freshBelow_ne_anc l1ff (le_refl r1.2.2.qubits)
        rcases Nat.lt_or_ge j r1.2.2.qubits with h | h
        · exact h
        · exact absurd (hfj ▸ (Cell.freshBelow_ne_anc l1ff h)) (by simp [hfj])
    -- the carry loop
    have hdropsub : ∀ c ∈ B.drop A.length, c ∈ B := fun c hc => List.drop_subset _ B hc
    have hbelDrop : cellsBelow q (B.drop A.length) = true := by
      simp only [cellsBelow, List.all_eq_true] at hbelB ⊢
      exact fun c hc => hbelB c (hdropsub c hc)
    have l2 := addCarryLoop_spec (B.drop A.length) r1.2.1 r1.2.2
      (hB.sublist (List.drop_sublist _ _))
      (cellsBelow_mono (by rw [hr1q]; omega) hbelDrop)
      (by
        obtain ⟨j, hj, _, hfj⟩ := hfin1anc
        rw [hfj]
        exact anc_not_mem_of_cellsBelow hbelDrop hj)
      l1ff
    set r2 := addCarryLoop (B.drop A.length) r1.2.1 r1.2.2 with hr2
    obtain ⟨l2q, l2a, l2sup, l2fin, l2ff, l2sem⟩ := l2
    have hr2q : r2.2.2.qubits = q + 1 + A.length + (B.length - A.length) := by
      rw [l2q, hr1q, List.length_drop]
    have hfin2anc : ∃ j, q ≤ j ∧ j < r2.2.2.qubits ∧ r2.2.1 = .anc j := by
      rcases l2fin with h | ⟨j, hj, hfj⟩
      · obtain ⟨j, hj1, hj2, hfj⟩ := hfin1anc
        refine ⟨j, hj1, ?_, h ▸ hfj⟩
        rw [hr2q, hr1q] at *
        omega
      · refine ⟨j, by rw [hr1q] at hj; omega, ?_, hfj⟩
        rcases Nat.lt_or_ge j r2.2.2.qubits with h | h
        · exact h
        · exact absurd (hfj ▸ (Cell.freshBelow_ne_anc l2ff h)) (by simp [hfj])
    -- the branch condition of add_int is false
    have hcond : ¬((!false && decide ((a :: A).length > (b :: B).length)) = true) := by
      simp only [Bool.not_false, Bool.true_and, decide_eq_true_eq]
      simp only [List.length_cons]
      omega
    refine ⟨half_adder a b (Cell.anc q) ++ r1.1 ++ r2.1, r2.2.2.discard [r2.2.1],
      ?_, ?_, ?_, ?_, ?_⟩
    · show add_int (a :: A) (b :: B) am false = _
      simp only [add_int]
      rw [if_neg hcond]
      rfl
    · rw [AncillaManager.discard_qubits, hr2q]; omega
    · rw [AncillaManager.discard_active, l2a, l1a, ham1a]
      simp
    · rw [supportedOnly_append, supportedOnly_append, half_adder_supported, l1sup, l2sup]
      rfl
    · intro s hz
      -- the first half adder
      have hac : a ≠ Cell.anc q := Cell.freshBelow_ne_anc hafr (le_refl q)
      have hbc : b ≠ Cell.anc q := Cell.freshBelow_ne_anc hbfr (le_refl q)
      have h_s1 := half_adder_apply a b (Cell.anc q) s hab hac hbc
      set s1 := applyGates (half_adder a b (Cell.anc q)) s with hs1
      have hs1b : s1 b = (s b).xor (s a) := by rw [h_s1 b]; simp
      have hs1cout : s1 (Cell.anc q) = (s a && s b) := by
        rw [h_s1 (Cell.anc q)]
        have h0 : s (Cell.anc q) = false := hz q (le_refl q)
        simp [Ne.symm hbc, h0]
      have hs1other : ∀ c : Cell, c ≠ b → c ≠ Cell.anc q → s1 c = s c := by
        intro c h1 h2
        rw [h_s1 c]; simp [h1, h2]
      have hz1 : zeroAbove am1.qubits s1 := by
        intro i hi
        rw [ham1q] at hi
        rw [hs1other (Cell.anc i)
          (Ne.symm (Cell.freshBelow_ne_anc hbfr (by omega)))
          (by simp; omega)]
        exact hz i (by omega)
      obtain ⟨m1V, m1C, m1FR, m1Z⟩ := l1sem s1 hz1
      set s2 := applyGates r1.1 s1 with hs2
      obtain ⟨m2V, m2FR, m2Z⟩ := l2sem s2 m1Z
      set s3 := applyGates r2.1 s2 with hs3
      have happ : applyGates (half_adder a b (Cell.anc q) ++ r1.1 ++ r2.1) s = s3 := by
        rw [applyGates_append, applyGates_append]
      -- disjointness of take and drop parts of B
      have hTD : ∀ c ∈ B.take A.length, c ∉ B.drop A.length := by
        have hnd : (B.take A.length ++ B.drop A.length).Nodup := by
          rw [List.take_append_drop]; exact hB
        rw [List.nodup_append] at hnd
        exact fun c hc => hnd.2.2 hc
      have htakesub : ∀ c ∈ B.take A.length, c ∈ B := fun c hc => List.take_subset _ B hc
      -- value transfers
      have hA1 : regVal s1 A = regVal s A := by
        apply regVal_congr
        intro c hc
        exact hs1other c (hAb c hc)
          (Cell.freshBelow_ne_anc (cellsBelow_mem hbelA hc) (le_refl q))
      have hBfr : ∀ c ∈ B, s1 c = s c := by
        intro c hc
        exact hs1other c (fun h => hbB (h ▸ hc))
          (Cell.freshBelow_ne_anc (cellsBelow_mem hbelB hc) (le_refl q))
      have hBt1 : regVal s1 (B.take A.length) = regVal s (B.take A.length) :=
        regVal_congr fun c hc => hBfr c (htakesub c hc)
      have hBd1 : regVal s1 (B.drop A.length) = regVal s (B.drop A.length) :=
        regVal_congr fun c hc => hBfr c (hdropsub c hc)
      have hBd2 : regVal s2 (B.drop A.length) = regVal s1 (B.drop A.length) := by
        apply regVal_congr
        intro c hc
        refine m1FR c (fun h => hTD c h hc) ?_ ?_
        · obtain ⟨j, hj, _, hfj⟩ := hfin1anc
          rw [hfj]
          exact Cell.freshBelow_ne_anc (cellsBelow_mem hbelB (hdropsub c hc)) hj
        · exact Cell.freshBelow_outsideRange (Cell.freshBelow_mono (by rw [ham1q]; omega)
            (cellsBelow_mem hbelB (hdropsub c hc)))
      rw [List.take_length] at m1V m1C
      -- b is untouched by both loops
      have hfin1b : b ≠ r1.2.1 := by
        obtain ⟨j, hj, _, hfj⟩ := hfin1anc
        rw [hfj]; exact Cell.freshBelow_ne_anc hbfr hj
      have hfin2b : b ≠ r2.2.1 := by
        obtain ⟨j, hj, _, hfj⟩ := hfin2anc
        rw [hfj]; exact Cell.freshBelow_ne_anc hbfr hj
      have hs2b : s2 b = s1 b := by
        apply m1FR b (fun h => hbB (htakesub b h)) hfin1b
        exact Cell.freshBelow_outsideRange (Cell.freshBelow_mono (by omega) hbfr)
      have hs3b : s3 b = s1 b := by
        rw [← hs2b]
        apply m2FR b (fun h => hbB (hdropsub b h)) hfin2b
        exact Cell.freshBelow_outsideRange
          (Cell.freshBelow_mono (by rw [hr1q]; omega) hbfr)
      -- take-part of B is untouched by the carry loop
      have hBt3 : regVal s3 (B.take A.length) = regVal s2 (B.take A.length) := by
        apply regVal_congr
        intro c hc
        apply m2FR c (hTD c hc) ?_ ?_
        · obtain ⟨j, hj, _, hfj⟩ := hfin2anc
          rw [hfj]
          exact Cell.freshBelow_ne_anc (cellsBelow_mem hbelB (htakesub c hc)) hj
        · exact Cell.freshBelow_outsideRange (Cell.freshBelow_mono (by rw [hr1q]; omega)
            (cellsBelow_mem hbelB (htakesub c hc)))
      have htlen : (B.take A.length).length = A.length := by
        rw [List.length_take]; omega
      have hdlen : (B.drop A.length).length = B.length - A.length := List.length_drop _ _
      refine ⟨?_, ?_, ?_⟩
      · -- the value of B after the addition
        rw [happ, regVal_cons, regVal_cons s b B, hs3b, hs1b]
        rw [regVal_take_add_drop s3 B A.length, hBt3, m1V, hA1, hBt1, htlen]
        rw [m2V, m1C, hBd2, hA1, hBt1, hBd1]
        rw [regVal_take_add_drop s B A.length, htlen, hdlen]
        rw [bv_sum2, hs1cout, bv_carry2]
        have harith := add_int_arith (bv (s a)) (bv (s b)) (regVal s A)
          (regVal s (B.take A.length)) (regVal s (B.drop A.length))
          A.length (B.length - A.length) (bv_le_one _) (bv_le_one _)
        have hexp : B.length - A.length + A.length = B.length := by omega
        have hlenc : (b :: B).length = A.length + (B.length - A.length) + 1 := by
          simp only [List.length_cons]; omega
        rw [hlenc]
        have hcomm : (bv (s b) + bv (s a)) % 2 = (bv (s a) + bv (s b)) % 2 := by omega
        rw [hcomm]
        convert harith using 3
      · -- frame
        intro c hcB hcout
        rw [AncillaManager.discard_qubits] at hcout
        rw [List.mem_cons, not_or] at hcB
        obtain ⟨hcb, hcB⟩ := hcB
        have hstep1 : Cell.outsideRange q r1.2.2.qubits c :=
          @Cell.outsideRange_narrow c q r1.2.2.qubits r2.2.2.qubits
            (by rw [hr2q, hr1q]; omega) hcout
        have h3 : s3 c = s2 c := by
          refine m2FR c (fun h => hcB (hdropsub c h)) ?_ ?_
          · obtain ⟨j, hj, hj2, hfj⟩ := hfin2anc
            rw [hfj]
            exact Cell.outsideRange_ne_anc hcout hj hj2
          · exact @Cell.outsideRange_mono_left c q r1.2.2.qubits r2.2.2.qubits
              (by rw [hr1q]; omega) hcout
        have h2 : s2 c = s1 c := by
          refine m1FR c (fun h => hcB (htakesub c h)) ?_ ?_
          · obtain ⟨j, hj, hj2, hfj⟩ := hfin1anc
            rw [hfj]
            refine Cell.outsideRange_ne_anc hcout hj ?_
            rw [hr2q]; rw [hr1q] at hj2; omega
          · exact @Cell.outsideRange_mono_left c q am1.qubits r1.2.2.qubits
              (by rw [ham1q]; omega) hstep1
        have h1 : s1 c = s c := by
          refine hs1other c hcb ?_
          refine Cell.outsideRange_ne_anc hcout (le_refl q) ?_
          rw [hr2q]; omega
        rw [happ, h3, h2, h1]
      · -- future ancillas stay zero
        rw [happ]
        intro i hi
        rw [AncillaManager.discard_qubits] at hi
        exact m2Z i hi

/-! ## Claim C5: ripple-carry addition -/

/-- C5 (amended): for all registers `A, B` with `A` nonempty,
`len(A) ≤ len(B)`, distinct cells, and ancillas zero, the program emitted
by `add_int(A, B)` replays through the interpreter leaving `A` unchanged
and `B` holding `(a+b) mod 2^len(B)`; and `add_int` raises `SizeError`
whenever `len(A) > len(B)` with `allow_overflow` unset. -/
theorem add_int_correct (A B : List Cell) (am : AncillaManager) (s : CState)
    (hnd : (A ++ B).Nodup) (hbel : cellsBelow am.qubits (A ++ B) = true)
    (hz : zeroAbove am.qubits s) (hlen : A.length ≤ B.length) (hne : A ≠ []) :
    (∃ gs am2 s', add_int A B am false = .ok (gs, am2) ∧
      ToffoliSimulator.simulate gs s = .ok (s', 1) ∧
      regVal s' A = regVal s A ∧
      regVal s' B = (regVal s A + regVal s B) % 2 ^ B.length) ∧
    (∀ A' B' : List Cell, ∀ am' : AncillaManager, A'.length > B'.length →
      add_int A' B' am' false = .error "register A too long to add to register B") := by
  constructor
  · have hB : B.Nodup := ((List.nodup_append.mp hnd).2).1
    have hAB : ∀ c ∈ A, c ∉ B := by
      intro c hc
      exact fun hcB => (List.nodup_append.mp hnd).2.2 hc hcB
    have hbelA : cellsBelow am.qubits A = true := by
      simp only [cellsBelow, List.all_eq_true] at hbel ⊢
      exact fun c hc => hbel c (List.mem_append_left _ hc)
    have hbelB : cellsBelow am.qubits B = true := by
      simp only [cellsBelow, List.all_eq_true] at hbel ⊢
      exact fun c hc => hbel c (List.mem_append_right _ hc)
    obtain ⟨gs, am2, heq, hq, ha, hsup, hsem⟩ :=
      add_int_spec A B am hB hAB hbelA hbelB hlen hne
    obtain ⟨hV, hFR, hZ⟩ := hsem s hz
    refine ⟨gs, am2, applyGates gs s, heq, simulate_of_supported gs s hsup, ?_, hV⟩
    exact regVal_frame_congr hFR hAB hbelA
  · intro A' B' am' hgt
    simp only [add_int, Bool.not_false, Bool.true_and]
    rw [if_pos (by simpa using hgt)]

/-- C5 counterexample to the unamended claim: for the empty register `A`
(`len(A) = 0 ≤ len(B)`), `add_int` does not produce a program at all — the
Python generator reaches a gate with `cin = None` and crashes. -/
theorem add_int_empty_A_fails :
    add_int [] [Cell.reg 0] AncillaManager.init false =
      .error "TypeError: add_int with an empty register" := rfl

/-- C5 witness: the concrete adder scenario `A = 27`, `B = 27` over 5 bits
gives `A = 27`, `B = 22`. -/
theorem add_int_correct_witness :
    ∃ gs am2 s', add_int ((List.range 5).map Cell.reg)
        ((List.range 5).map (fun i => Cell.reg (5 + i))) AncillaManager.init false =
        .ok (gs, am2) ∧
      ToffoliSimulator.simulate gs
        (fun c => match c with
          | .reg i => if i < 5 then (27:Nat).testBit i else (27:Nat).testBit (i - 5)
          | _ => false) = .ok (s', 1) ∧
      regVal s' ((List.range 5).map Cell.reg) = 27 ∧
      regVal s' ((List.range 5).map (fun i => Cell.reg (5 + i))) = 22 := by
  have h := add_int_correct ((List.range 5).map Cell.reg)
    ((List.range 5).map (fun i => Cell.reg (5 + i))) AncillaManager.init
    (fun c => match c with
      | .reg i => if i < 5 then (27:Nat).testBit i else (27:Nat).testBit (i - 5)
      | _ => false)
    (by decide) (by decide) (fun i _ => rfl) (by decide) (by decide)
  obtain ⟨⟨gs, am2, s', heq, hsim, hA, hB⟩, _⟩ := h
  refine ⟨gs, am2, s', heq, hsim, ?_, ?_⟩
  · rw [hA]; decide
  · rw [hB]; decide

/-! ## Claim C7: interpreter gate-set boundary -/

/-- A gate the interpreter recognises (allowed or phase-error). -/
def Gate.isKnown (g : Gate) : Bool :=
  g.isAllowed || g.isPhaseError

theorem foldlM_simStep_err (gs : List Gate) :
    ∀ acc : CState × Int, ∀ g ∈ gs, g.isKnown = false →
    ∃ msg, gs.foldlM simStep acc = Except.error msg := by
  induction gs with
  | nil => intro acc g hg; simp at hg
  | cons h t ih =>
    intro acc g hg hbad
    rcases List.mem_cons.mp hg with rfl | hgt
    · cases g with
      | unsupported n qs => exact ⟨"unsupported gate type", rfl⟩
      | X c => simp [Gate.isKnown, Gate.isAllowed] at hbad
      | CNOT c t' => simp [Gate.isKnown, Gate.isAllowed] at hbad
      | TOFFOLI c1 c2 t' => simp [Gate.isKnown, Gate.isAllowed] at hbad
      | Y c => simp [Gate.isKnown, Gate.isPhaseError] at hbad
      | Z c => simp [Gate.isKnown, Gate.isPhaseError] at hbad
    · cases hstep : simStep acc h with
      | ok acc' =>
        obtain ⟨msg, hmsg⟩ := ih acc' g hgt hbad
        refine ⟨msg, ?_⟩
        rw [List.foldlM_cons, hstep]
        exact hmsg
      | error msg =>
        refine ⟨msg, ?_⟩
        rw [List.foldlM_cons, hstep]
        rfl

/-- C7 (amended): the interpreter raises `UnsupportedGateError` on any
program containing a gate outside `{X, CNOT, TOFFOLI, Y, Z}` — but the
phase-error gates `Y`/`Z` are always accepted; the source has no separate
error-injection mode switch. -/
theorem simulate_unsupported_gate_errors (gs : List Gate) (s : CState)
    (g : Gate) (hg : g ∈ gs) (hbad : g.isKnown = false) :
    ∃ msg, ToffoliSimulator.simulate gs s = .error msg :=
  foldlM_simStep_err gs (s, 1) g hg hbad

/-- C7 counterexample to the claim as stated: a program containing a `Z`
gate — outside `{X, CNOT, TOFFOLI}` — simulates without error in the
interpreter's only mode. -/
theorem simulate_Z_gate_no_error :
    (ToffoliSimulator.simulate [Gate.Z (Cell.reg 0)] (fun _ => false)).isOk = true := rfl

/-- C7 witness: a program holding an unrecognised gate kind errors. -/
theorem simulate_unsupported_gate_errors_witness :
    (Gate.unsupported 0 []) ∈ [Gate.unsupported 0 []] ∧
    (Gate.unsupported 0 []).isKnown = false ∧
    ∃ msg, ToffoliSimulator.simulate [Gate.unsupported 0 []] (fun _ => false) =
      .error msg :=
  ⟨by decide, by decide,
   simulate_unsupported_gate_errors [Gate.unsupported 0 []] (fun _ => false)
     (Gate.unsupported 0 []) (by decide) (by decide)⟩

/-! ## Claim C8: retirement protocol -/

/-- C8 (amended): `discard` performs no lifecycle check at all.  Retiring
an already-retired ancilla succeeds silently: the garbage flags are
unchanged (the cell is re-marked), the issued count and peak are
unchanged, but the live count drops again (it can go negative). -/
theorem discard_retired_no_error (am : AncillaManager) (i : Nat)
    (hg : am.garbage i = true) (hm : am.nActive ≤ am.maxAncillas) :
    (am.discard [Cell.anc i]).nActive = am.nActive - 1 ∧
    (am.discard [Cell.anc i]).maxAncillas = am.maxAncillas ∧
    (am.discard [Cell.anc i]).qubits = am.qubits ∧
    ∀ j, (am.discard [Cell.anc i]).garbage j = am.garbage j := by
  refine ⟨by simp [AncillaManager.discard, AncillaManager.setActive], ?_, rfl, ?_⟩
  · simp only [AncillaManager.discard, AncillaManager.setActive]
    rw [if_neg]
    simp only [List.length_cons, List.length_nil]
    push_cast
    omega
  · intro j
    simp only [AncillaManager.discard]
    by_cases h : j = i
    · subst h; simp [hg]
    · simp [h, Cell.anc.injEq]

/-- C8 counterexample to the claim as stated: discarding the same ancilla
twice raises nothing, and the second `discard` changes the bookkeeping —
the live count drops to `-1`. -/
theorem discard_double_changes_count :
    (((AncillaManager.init.new.2).discard [Cell.anc 0]).discard [Cell.anc 0]).nActive
        = -1 ∧
    ((AncillaManager.init.new.2).discard [Cell.anc 0]).garbage 0 = true := by
  constructor
  · rfl
  · rfl

/-- C8 witness for the amended statement. -/
theorem discard_retired_no_error_witness :
    ((AncillaManager.init.new.2).discard [Cell.anc 0]).garbage 0 = true ∧
    ((AncillaManager.init.new.2).discard [Cell.anc 0]).nActive ≤
      ((AncillaManager.init.new.2).discard [Cell.anc 0]).maxAncillas ∧
    ((((AncillaManager.init.new.2).discard [Cell.anc 0]).discard [Cell.anc 0]).nActive =
      ((AncillaManager.init.new.2).discard [Cell.anc 0]).nActive - 1) := by
  refine ⟨rfl, by norm_num [AncillaManager.init, AncillaManager.new,
    AncillaManager.discard, AncillaManager.setActive], ?_⟩
  exact (discard_retired_no_error _ 0 rfl (by norm_num [AncillaManager.init,
    AncillaManager.new, AncillaManager.discard, AncillaManager.setActive])).1

/-! ## `extended_gcd` (claim C6) -/

theorem natAbs_emod_lt_natAbs (a b : Int) (h : b ≠ 0) : (a % b).natAbs < b.natAbs := by
  have h1 := Int.emod_nonneg a h
  have h2 := Int.emod_lt a h
  rw [Int.abs_eq_natAbs] at h2
  omega

/-- The `while r != 0` loop of `extended_gcd`, with Python's floor
division and the simultaneous triple update.  (On the nonnegative
remainders produced by the loop, Lean's `Int` `/` and `%` agree with
Python's floor semantics.) -/
def egcdLoop (old_r r old_s s old_t t : Int) : Int × Int × Int :=
  if h : r = 0 then (old_r, old_s, old_t)
  else
    egcdLoop r (old_r - old_r / r * r) s (old_s - old_r / r * s) t (old_t - old_r / r * t)
termination_by r.natAbs
decreasing_by
  simp_wf
  have he := Int.ediv_add_emod old_r r
  have h2 : old_r - old_r / r * r = old_r % r := by linear_combination -he
  rw [h2]
  exact natAbs_emod_lt_natAbs old_r r h

/-- `extended_gcd(a, b)`: run the loop from `(a, b)` and normalize the
signs, returning `(old_s, -old_t)`. -/
def extended_gcd (a b : Int) : Int × Int :=
  let res := egcdLoop a b 1 0 0 1
  let old_s := res.2.1
  let old_t := res.2.2
  let old_s1 := if old_s < 0 then old_s + b else old_s
  let old_t1 := if old_t > 0 then old_t - a else old_t
  (old_s1, -old_t1)

theorem egcdLoop_base (old_r old_s s old_t t : Int) :
    egcdLoop old_r 0 old_s s old_t t = (old_r, old_s, old_t) := by
  rw [egcdLoop]
  simp

theorem egcdLoop_step (old_r r old_s s old_t t : Int) (h : r ≠ 0) :
    egcdLoop old_r r old_s s old_t t =
      egcdLoop r (old_r - old_r / r * r) s (old_s - old_r / r * s) t
        (old_t - old_r / r * t) := by
  rw [egcdLoop]
  simp [h]

/-- One division step preserves the sign-alternation and the magnitude
identity of a Bezout-coefficient pair. -/
theorem egcd_mag_step (old_r r q u v B : Int) (hq : 0 ≤ q)
    (hsign : (0 ≤ u ∧ v ≤ 0) ∨ (u ≤ 0 ∧ 0 ≤ v))
    (hmag : |v| * old_r + |u| * r = B) :
    (|u - q * v| * r + |v| * (old_r - q * r) = B) ∧
    ((0 ≤ v ∧ u - q * v ≤ 0) ∨ (v ≤ 0 ∧ 0 ≤ u - q * v)) := by
  rcases hsign with ⟨hu, hv⟩ | ⟨hu, hv⟩
  · have hqv : q * v ≤ 0 := mul_nonpos_of_nonneg_of_nonpos hq hv
    have huv : 0 ≤ u - q * v := by omega
    rw [abs_of_nonpos hv, abs_of_nonneg hu] at hmag
    rw [abs_of_nonneg huv, abs_of_nonpos hv]
    exact ⟨by linear_combination hmag, Or.inr ⟨hv, huv⟩⟩
  · have hqv : 0 ≤ q * v := mul_nonneg hq hv
    have huv : u - q * v ≤ 0 := by omega
    rw [abs_of_nonneg hv, abs_of_nonpos hu] at hmag
    rw [abs_of_nonpos huv, abs_of_nonneg hv]
    exact ⟨by linear_combination hmag, Or.inl ⟨hv, huv⟩⟩

/-- Main induction for `extended_gcd`: from any loop state reachable with
`0 < r < old_r` on coprime inputs, the loop returns gcd `1`, a Bezout
pair for `(a, b)`, and coefficients of magnitude at most `b/2` resp.
`a/2`. -/
theorem egcdLoop_bounds (a b : Int) : ∀ n : Nat, ∀ old_r r old_s s old_t t : Int,
    r.natAbs ≤ n →
    0 < r → r < old_r →
    a * old_s + b * old_t = old_r →
    a * s + b * t = r →
    (old_s * t - s * old_t = 1 ∨ old_s * t - s * old_t = -1) →
    ((0 ≤ old_s ∧ s ≤ 0) ∨ (old_s ≤ 0 ∧ 0 ≤ s)) →
    ((0 ≤ old_t ∧ t ≤ 0) ∨ (old_t ≤ 0 ∧ 0 ≤ t)) →
    |s| * old_r + |old_s| * r = b →
    |t| * old_r + |old_t| * r = a →
    Int.gcd a b = 1 →
    (egcdLoop old_r r old_s s old_t t).1 = 1 ∧
    a * (egcdLoop old_r r old_s s old_t t).2.1 +
      b * (egcdLoop old_r r old_s s old_t t).2.2 = 1 ∧
    2 * |(egcdLoop old_r r old_s s old_t t).2.1| ≤ b ∧
    2 * |(egcdLoop old_r r old_s s old_t t).2.2| ≤ a := by
  intro n
  induction n with
  | zero =>
    intro old_r r old_s s old_t t hle hr
    omega
  | succ n ih =>
    intro old_r r old_s s old_t t hle hr hrr hbez1 hbez2 hdet hsgs hsgt hmgs hmgt hco
    have hrne : r ≠ 0 := by omega
    rw [egcdLoop_step old_r r old_s s old_t t hrne]
    have he := Int.ediv_add_emod old_r r
    have hmodeq : old_r - old_r / r * r = old_r % r := by linear_combination -he
    have hq1 : 1 ≤ old_r / r := (Int.le_ediv_iff_mul_le hr).mpr (by omega)
    have hq0 : 0 ≤ old_r / r := by omega
    have hmod0 : 0 ≤ old_r % r := Int.emod_nonneg old_r hrne
    have hmodlt : old_r % r < r := Int.emod_lt_of_pos old_r hr
    have hs' := egcd_mag_step old_r r (old_r / r) old_s s b hq0 hsgs hmgs
    have ht' := egcd_mag_step old_r r (old_r / r) old_t t a hq0 hsgt hmgt
    by_cases hz : old_r - old_r / r * r = 0
    · -- the next remainder is zero: `r` divides `old_r` and must be 1
      rw [hz, egcdLoop_base]
      have hdvd : r ∣ old_r := by
        apply Int.dvd_of_emod_eq_zero
        omega
      have hdva : r ∣ a := by
        have hkey : t * old_r - old_t * r = (old_s * t - s * old_t) * a := by
          linear_combination old_t * hbez2 - t * hbez1
        have h1 : r ∣ (old_s * t - s * old_t) * a := by
          rw [← hkey]
          exact dvd_sub (Dvd.dvd.mul_left hdvd t) (Dvd.dvd.mul_left dvd_rfl old_t)
        rcases hdet with h | h
        · rwa [h, one_mul] at h1
        · rw [h, neg_one_mul] at h1
          exact dvd_neg.mp h1
      have hdvb : r ∣ b := by
        have hkey : old_s * r - s * old_r = (old_s * t - s * old_t) * b := by
          linear_combination s * hbez1 - old_s * hbez2
        have h1 : r ∣ (old_s * t - s * old_t) * b := by
          rw [← hkey]
          exact dvd_sub (Dvd.dvd.mul_left dvd_rfl old_s) (Dvd.dvd.mul_left hdvd s)
        rcases hdet with h | h
        · rwa [h, one_mul] at h1
        · rw [h, neg_one_mul] at h1
          exact dvd_neg.mp h1
      have hr1 : r = 1 := by
        have := Int.dvd_gcd hdva hdvb
        rw [hco] at this
        exact Int.eq_one_of_dvd_one (by omega) (by simpa using this)
      subst hr1
      have h2r : 2 ≤ old_r := by omega
      have hb2 : 2 * |s| ≤ b := by
        have h3 : |s| * 2 ≤ |s| * old_r := mul_le_mul_of_nonneg_left h2r (abs_nonneg s)
        have h4 : 0 ≤ |old_s| * 1 := mul_nonneg (abs_nonneg old_s) (by norm_num)
        have h5 : |s| * old_r + |old_s| * 1 = b := hmgs
        linarith
      have ha2 : 2 * |t| ≤ a := by
        have h3 : |t| * 2 ≤ |t| * old_r := mul_le_mul_of_nonneg_left h2r (abs_nonneg t)
        have h4 : 0 ≤ |old_t| * 1 := mul_nonneg (abs_nonneg old_t) (by norm_num)
        have h5 : |t| * old_r + |old_t| * 1 = a := hmgt
        linarith
      exact ⟨rfl, by linear_combination hbez2, hb2, ha2⟩
    · -- recursive case: invariants carry to the next state
      have hmodpos : 0 < old_r - old_r / r * r := by omega
      refine ih r (old_r - old_r / r * r) s (old_s - old_r / r * s) t
        (old_t - old_r / r * t) ?_ hmodpos (by omega)
        (by linear_combination hbez2) (by linear_combination hbez1 - (old_r / r) * hbez2)
        ?_ hs'.2 ht'.2 hs'.1 ht'.1 hco
      · have := natAbs_emod_lt_natAbs old_r r hrne
        omega
      · rcases hdet with h | h
        · exact Or.inr (by linear_combination -h)
        · exact Or.inl (by linear_combination -h)

/-- Bezout pair and coefficient ranges coming out of the loop, for all
coprime positive inputs (small cases `a = 1` / `b = 1` computed
explicitly, the rest by `egcdLoop_bounds`). -/
theorem egcdLoop_run (a b : Int) (ha : 0 < a) (hb : 0 < b)
    (hco : Int.gcd a b = 1) :
    a * (egcdLoop a b 1 0 0 1).2.1 + b * (egcdLoop a b 1 0 0 1).2.2 = 1 ∧
    -b < (egcdLoop a b 1 0 0 1).2.1 ∧ (egcdLoop a b 1 0 0 1).2.1 < b ∧
    -a < (egcdLoop a b 1 0 0 1).2.2 ∧ (egcdLoop a b 1 0 0 1).2.2 ≤ a := by
  by_cases hb1 : b = 1
  · subst hb1
    have h1 : egcdLoop a 1 1 0 0 1 = (1, 0, 1) := by
      rw [egcdLoop_step a 1 1 0 0 1 one_ne_zero]
      simp only [Int.ediv_one, mul_one, mul_zero, sub_self, sub_zero, zero_sub]
      exact egcdLoop_base 1 0 1 1 (-a)
    rw [h1]
    norm_num
    omega
  · have hb2 : 2 ≤ b := by omega
    by_cases ha1 : a = 1
    · subst ha1
      have h1 : egcdLoop 1 b 1 0 0 1 = (1, 1, 0) := by
        rw [egcdLoop_step 1 b 1 0 0 1 (by omega)]
        rw [Int.ediv_eq_zero_of_lt (by norm_num) (by omega)]
        norm_num
        rw [egcdLoop_step b 1 0 1 1 0 one_ne_zero]
        simp only [Int.ediv_one, mul_one, mul_zero, sub_self, sub_zero, zero_sub]
        exact egcdLoop_base 1 1 (-b) 0 1
      rw [h1]
      norm_num
      omega
    · have ha2 : 2 ≤ a := by omega
      have hab : a ≠ b := by
        intro h
        rw [h, Int.gcd_self] at hco
        omega
      have habs : ∀ e : Int × Int × Int,
          2 * |e.2.1| ≤ b → 2 * |e.2.2| ≤ a →
          -b < e.2.1 ∧ e.2.1 < b ∧ -a < e.2.2 ∧ e.2.2 ≤ a := by
        intro e h1 h2
        rcases abs_cases e.2.1 with ⟨hc1, _⟩ | ⟨hc1, _⟩ <;>
          rcases abs_cases e.2.2 with ⟨hc2, _⟩ | ⟨hc2, _⟩ <;> omega
      rcases Int.lt_or_lt_of_ne hab with hlt | hlt
      · -- a < b : the first iteration swaps the pair
        have hswap : egcdLoop a b 1 0 0 1 = egcdLoop b a 0 1 1 0 := by
          rw [egcdLoop_step a b 1 0 0 1 (by omega)]
          rw [Int.ediv_eq_zero_of_lt (by omega) hlt]
          norm_num
        obtain ⟨hg, hbez, hxs, hxt⟩ :=
          egcdLoop_bounds a b a.natAbs b a 0 1 1 0 (le_refl _) ha hlt
            (by ring) (by ring) (Or.inr (by ring))
            (Or.inr ⟨le_refl 0, by norm_num⟩) (Or.inl ⟨by norm_num, le_refl 0⟩)
            (by simp) (by simp) hco
        rw [hswap]
        exact ⟨hbez, habs _ hxs hxt⟩
      · -- b < a : apply the loop lemma directly
        obtain ⟨hg, hbez, hxs, hxt⟩ :=
          egcdLoop_bounds a b b.natAbs a b 1 0 0 1 (le_refl _) hb hlt
            (by ring) (by ring) (Or.inl (by ring))
            (Or.inl ⟨by norm_num, le_refl 0⟩) (Or.inr ⟨le_refl 0, by norm_num⟩)
            (by simp) (by simp) hco
        exact ⟨hbez, habs _ hxs hxt⟩

/-- C6: for coprime positive `a, b`, `extended_gcd(a, b)` returns `(x, y)`
with `0 ≤ x < b`, `0 ≤ y < a`, `a·x ≡ 1 (mod b)` and `b·y ≡ -1 (mod a)`. -/
theorem extended_gcd_contract (a b : Int) (ha : 0 < a) (hb : 0 < b)
    (hco : Int.gcd a b = 1) :
    0 ≤ (extended_gcd a b).1 ∧ (extended_gcd a b).1 < b ∧
    0 ≤ (extended_gcd a b).2 ∧ (extended_gcd a b).2 < a ∧
    a * (extended_gcd a b).1 ≡ 1 [ZMOD b] ∧
    b * (extended_gcd a b).2 ≡ -1 [ZMOD a] := by
  obtain ⟨hbez, hx1, hx2, hy1, hy2⟩ := egcdLoop_run a b ha hb hco
  set xs := (egcdLoop a b 1 0 0 1).2.1 with hxs
  set xt := (egcdLoop a b 1 0 0 1).2.2 with hxt
  have hfst : (extended_gcd a b).1 = if xs < 0 then xs + b else xs := rfl
  have hsnd : (extended_gcd a b).2 = -(if xt > 0 then xt - a else xt) := rfl
  rw [hfst, hsnd]
  refine ⟨?_, ?_, ?_, ?_, ?_, ?_⟩
  · by_cases h : xs < 0 <;> simp [h] <;> omega
  · by_cases h : xs < 0 <;> simp [h] <;> omega
  · by_cases h : xt > 0 <;> simp [h] <;> omega
  · by_cases h : xt > 0 <;> simp [h] <;> omega
  · rw [Int.modEq_iff_dvd]
    by_cases h : xs < 0 <;> simp only [h, if_pos, if_neg, not_false_iff]
    · exact ⟨xt - a, by linear_combination -hbez⟩
    · exact ⟨xt, by linear_combination -hbez⟩
  · rw [Int.modEq_iff_dvd]
    by_cases h : xt > 0 <;> simp only [h, if_pos, if_neg, not_false_iff]
    · exact ⟨-b - xs, by linear_combination hbez⟩
    · exact ⟨-xs, by linear_combination hbez⟩

/-- C6 witness: the contract at `a = 5`, `b = 3` (`extended_gcd 5 3 = (2, 3)`). -/
theorem extended_gcd_contract_witness :
    (0:Int) < 5 ∧ (0:Int) < 3 ∧ Int.gcd 5 3 = 1 ∧
    (0 ≤ (extended_gcd 5 3).1 ∧ (extended_gcd 5 3).1 < 3 ∧
     0 ≤ (extended_gcd 5 3).2 ∧ (extended_gcd 5 3).2 < 5 ∧
     5 * (extended_gcd 5 3).1 ≡ 1 [ZMOD 3] ∧
     3 * (extended_gcd 5 3).2 ≡ -1 [ZMOD 5]) :=
  ⟨by norm_num, by norm_num, by decide,
   extended_gcd_contract 5 3 (by norm_num) (by norm_num) (by decide)⟩

/-! ## `add_classical_int` (classical addend, optional control) -/

/-- Python's `int.bit_length` on naturals. -/
def bit_length (n : Nat) : Nat := if n = 0 then 0 else Nat.log2 n + 1

/-- Python's `int.bit_length` (negative integers use the absolute value). -/
def intBitLength (x : Int) : Nat := bit_length x.natAbs

theorem lt_two_pow_bit_length (n : Nat) : n < 2 ^ bit_length n := by
  unfold bit_length
  by_cases h : n = 0
  · simp [h]
  · rw [if_neg h]
    exact Nat.lt_log2_self

theorem bit_length_le (n k : Nat) (h : n < 2 ^ k) : bit_length n ≤ k := by
  unfold bit_length
  by_cases h0 : n = 0
  · simp [h0]
  · rw [if_neg h0]
    by_contra hc
    have h1 : k ≤ Nat.log2 n := by omega
    have h2 : 2 ^ k ≤ 2 ^ Nat.log2 n := Nat.pow_le_pow_right (by norm_num) h1
    have h3 : 2 ^ Nat.log2 n ≤ n := Nat.log2_self_le h0
    omega

theorem two_pow_pred_le_of_bit_length (n : Nat) (h : n ≠ 0) :
    2 ^ (bit_length n - 1) ≤ n := by
  unfold bit_length
  rw [if_neg h]
  simpa using Nat.log2_self_le h

/-- The `Xgate` of `add_classical_int`: plain `X`, or `CNOT` from the
control qubit. -/
def Xg (control : Option Cell) (q : Cell) : Gate :=
  match control with
  | none => .X q
  | some c => .CNOT c q

/-- Value of the control (1 when there is none). -/
def ctrlVal (control : Option Cell) (s : CState) : Bool :=
  match control with
  | none => true
  | some c => s c

/-- The gate pattern of one `x&1 == 1` column of `add_classical_int`:
"half adder plus one". -/
def addOneColumn (control : Option Cell) (cin a cout : Cell) : List Gate :=
  [Xg control cin, Xg control a] ++ half_adder cin a cout ++
    [Xg control a, Xg control cout]

theorem addOneColumn_supported (control : Option Cell) (cin a cout : Cell) :
    supportedOnly (addOneColumn control cin a cout) = true := by
  cases control <;> rfl

/-- Pointwise semantics of the "half adder plus one" column. -/
theorem addOneColumn_apply (control : Option Cell) (cin a cout : Cell) (s : CState)
    (hca : cin ≠ a) (hcc : cin ≠ cout) (hac : a ≠ cout)
    (hctl : ∀ c, control = some c → c ≠ cin ∧ c ≠ a ∧ c ≠ cout) (d : Cell) :
    applyGates (addOneColumn control cin a cout) s d =
      if d = a then ((s a).xor (s cin)).xor (ctrlVal control s)
      else if d = cout then
        (s cout).xor (((((s cin).xor (ctrlVal control s)) &&
          ((s a).xor (ctrlVal control s)))).xor (ctrlVal control s))
      else if d = cin then (s cin).xor (ctrlVal control s)
      else s d := by
  cases control with
  | none =>
    simp only [addOneColumn, Xg, half_adder, applyGates, List.foldl, List.append_eq,
      List.cons_append, List.nil_append, Gate.apply, CState.set, ctrlVal]
    by_cases hda : d = a <;> by_cases hdc : d = cout <;> by_cases hdn : d = cin <;>
      simp_all [Ne.symm hca, Ne.symm hcc, Ne.symm hac] <;>
      cases s cin <;> cases s a <;> simp_all
  | some ctl =>
    obtain ⟨h1, h2, h3⟩ := hctl ctl rfl
    simp only [addOneColumn, Xg, half_adder, applyGates, List.foldl, List.append_eq,
      List.cons_append, List.nil_append, Gate.apply, CState.set, ctrlVal]
    by_cases hda : d = a <;> by_cases hdc : d = cout <;> by_cases hdn : d = cin <;>
      simp_all [Ne.symm hca, Ne.symm hcc, Ne.symm hac, Ne.symm h1, Ne.symm h2,
        Ne.symm h3, h1, h2, h3] <;>
      cases s cin <;> cases s a <;> cases s ctl <;> simp_all

theorem add_column_mod2 (a0 b0 c0 x y k : Nat)
    (ha : a0 ≤ 1) (hb : b0 ≤ 1) (hc : c0 ≤ 1) :
    (b0 + c0 + a0) % 2 + 2 * ((y + (b0 + c0 + a0) / 2 + x) % 2 ^ k) =
      (b0 + 2 * y + c0 + (a0 + 2 * x)) % 2 ^ (k + 1) := by
  have h1 : b0 + c0 + a0 = a0 + b0 + c0 := by omega
  have h2 : y + (a0 + b0 + c0) / 2 + x = x + y + (a0 + b0 + c0) / 2 := by omega
  rw [h1, h2, add_column_mod a0 b0 c0 x y k ha hb hc]
  congr 1
  ring

theorem bv_carry_u (a c u : Bool) :
    bv (((c.xor u) && (a.xor u)).xor u) = (bv a + bv c + bv u) / 2 := by
  cases a <;> cases c <;> cases u <;> rfl

/-- Splitting an integer residue bit by bit (Python `x&1` / `x >>= 1`). -/
theorem int_emod_two_pow_succ (x : Int) (k : Nat) :
    x % 2 ^ (k + 1) = x % 2 + 2 * (x / 2 % 2 ^ k) := by
  have hA := Int.ediv_add_emod x 2
  have hB := Int.ediv_add_emod (x / 2) (2 ^ k)
  have hm : 0 ≤ x % 2 := Int.emod_nonneg x (by norm_num)
  have hm2 : x % 2 < 2 := Int.emod_lt_of_pos x (by norm_num)
  have hk0 : (0:Int) < 2 ^ k := by positivity
  have hmk : 0 ≤ x / 2 % 2 ^ k := Int.emod_nonneg _ (by positivity)
  have hmk2 : x / 2 % 2 ^ k < 2 ^ k := Int.emod_lt_of_pos _ hk0
  have hsplit : x = (x % 2 + 2 * (x / 2 % 2 ^ k)) + 2 ^ (k + 1) * (x / 2 / 2 ^ k) := by
    linear_combination -hA - 2 * hB
  have hp : (2:Int) ^ (k + 1) = 2 * 2 ^ k := by ring
  calc x % 2 ^ (k + 1)
      = ((x % 2 + 2 * (x / 2 % 2 ^ k)) + 2 ^ (k + 1) * (x / 2 / 2 ^ k)) % 2 ^ (k + 1) := by
        rw [← hsplit]
    _ = (x % 2 + 2 * (x / 2 % 2 ^ k)) % 2 ^ (k + 1) := by
        rw [Int.add_mul_emod_self_left]
    _ = x % 2 + 2 * (x / 2 % 2 ^ k) := by
        apply Int.emod_eq_of_lt (by omega)
        rw [hp]
        omega

/-- Main loop of `add_classical_int`: per bit of `x`, a half adder
(bit 0) or the "half adder plus one" pattern (bit 1), with every
unconditional flip routed through the optional control. -/
def addClassicalLoop (x : Int) (A : List Cell) (control : Option Cell)
    (cin : Cell) (am : AncillaManager) : List Gate × Cell × AncillaManager :=
  match A with
  | [] => ([], cin, am)
  | a :: A =>
    let cout := am.new.1
    let am1 := am.new.2
    let gs := if x % 2 = 0 then half_adder cin a cout
              else addOneColumn control cin a cout
    let am2 := am1.discard [cin]
    let r := addClassicalLoop (x / 2) A control cout am2
    (gs ++ r.1, r.2.1, r.2.2)

/-- `add_classical_int(x, A, ancillas, control)`. -/
def add_classical_int (x : Int) (A : List Cell) (am : AncillaManager)
    (control : Option Cell) : Except String (List Gate × AncillaManager) :=
  if intBitLength x > A.length then .error "x too large to add to A"
  else
    let cin := am.new.1
    let am1 := am.new.2
    let r := addClassicalLoop x A control cin am1
    let am2 := r.2.2.discard [r.2.1]
    .ok (r.1, am2)

/-- Full behaviour of the `add_classical_int` loop: it adds the low
`|A|` bits of `x` (under the control) plus the incoming carry into `A`. -/
theorem addClassicalLoop_spec (A : List Cell) :
    ∀ (x : Int) (control : Option Cell) (cin : Cell) (am : AncillaManager),
    A.Nodup → cellsBelow am.qubits A = true → cin ∉ A →
    cin.freshBelow am.qubits = true →
    (∀ c, control = some c → c ∉ A ∧ c ≠ cin ∧ c.freshBelow am.qubits = true) →
    (addClassicalLoop x A control cin am).2.2.qubits = am.qubits + A.length ∧
    (addClassicalLoop x A control cin am).2.2.nActive = am.nActive ∧
    supportedOnly (addClassicalLoop x A control cin am).1 = true ∧
    ((addClassicalLoop x A control cin am).2.1 = cin ∨
      ∃ j, am.qubits ≤ j ∧ (addClassicalLoop x A control cin am).2.1 = .anc j) ∧
    (addClassicalLoop x A control cin am).2.1.freshBelow
      (addClassicalLoop x A control cin am).2.2.qubits = true ∧
    ∀ s : CState, zeroAbove am.qubits s →
      regVal (applyGates (addClassicalLoop x A control cin am).1 s) A =
        (regVal s A + bv (s cin) +
          (if ctrlVal control s then (x % 2 ^ A.length).toNat else 0)) %
          2 ^ A.length ∧
      (∀ c : Cell, c ∉ A → c ≠ cin → c ≠ (addClassicalLoop x A control cin am).2.1 →
        Cell.outsideRange am.qubits (addClassicalLoop x A control cin am).2.2.qubits c →
        applyGates (addClassicalLoop x A control cin am).1 s c = s c) ∧
      zeroAbove (addClassicalLoop x A control cin am).2.2.qubits
        (applyGates (addClassicalLoop x A control cin am).1 s) := by
  induction A with
  | nil =>
    intro x control cin am _ _ _ hcf _
    refine ⟨by simp [addClassicalLoop], by simp [addClassicalLoop], rfl,
      Or.inl rfl, hcf, ?_⟩
    intro s hz
    refine ⟨by simp [addClassicalLoop, regVal, applyGates, Nat.mod_one], ?_, ?_⟩
    · intro c _ _ _ _; simp [addClassicalLoop, applyGates]
    · intro i hi; simpa [addClassicalLoop, applyGates] using hz i hi
  | cons a A ih =>
    intro x control cin am hnd hbel hcinA hcf hctl
    rw [cellsBelow_cons, Bool.and_eq_true] at hbel
    obtain ⟨hafr, hbel⟩ := hbel
    rw [List.nodup_cons] at hnd
    obtain ⟨haA, hnd⟩ := hnd
    have hca : cin ≠ a := by
      simp only [List.mem_cons, not_or] at hcinA
      exact hcinA.1
    have hcinA' : cin ∉ A := by
      simp only [List.mem_cons, not_or] at hcinA
      exact hcinA.2
    set q := am.qubits with hq
    set am2 : AncillaManager := (am.new.2).discard [cin] with ham2
    have ham2q : am2.qubits = q + 1 := rfl
    have ham2a : am2.nActive = am.nActive := by
      rw [ham2, AncillaManager.discard_active, AncillaManager.new_active]
      simp
    have hctl' : ∀ c, control = some c →
        c ∉ A ∧ c ≠ Cell.anc q ∧ c.freshBelow am2.qubits = true := by
      intro c hc
      obtain ⟨hc1, hc2, hc3⟩ := hctl c hc
      refine ⟨fun hm => hc1 (by simp [hm]), Cell.freshBelow_ne_anc hc3 (le_refl q), ?_⟩
      rw [ham2q]
      exact Cell.freshBelow_mono (Nat.le_succ q) hc3
    have ihs := ih (x / 2) control (Cell.anc q) am2 hnd
      (by rw [ham2q]; exact cellsBelow_mono (Nat.le_succ q) hbel)
      (anc_not_mem_of_cellsBelow hbel (le_refl q))
      (by rw [ham2q]; simp [Cell.freshBelow]) hctl'
    obtain ⟨ihq, iha, ihsup, ihfin, ihff, ihsem⟩ := ihs
    have hred : addClassicalLoop x (a :: A) control cin am =
        ((if x % 2 = 0 then half_adder cin a (Cell.anc q)
          else addOneColumn control cin a (Cell.anc q)) ++
           (addClassicalLoop (x / 2) A control (Cell.anc q) am2).1,
         (addClassicalLoop (x / 2) A control (Cell.anc q) am2).2.1,
         (addClassicalLoop (x / 2) A control (Cell.anc q) am2).2.2) := rfl
    set r := addClassicalLoop (x / 2) A control (Cell.anc q) am2 with hr
    have hqout : r.2.2.qubits = q + (A.length + 1) := by rw [ihq, ham2q]; omega
    refine ⟨by rw [hred]; simpa using hqout, ?_, ?_, ?_, ?_, ?_⟩
    · rw [hred]
      show r.2.2.nActive = am.nActive
      rw [iha, ham2a]
    · rw [hred]
      show supportedOnly (_ ++ r.1) = true
      rw [supportedOnly_append, ihsup]
      by_cases h : x % 2 = 0 <;>
        simp [h, half_adder_supported, addOneColumn_supported]
    · rw [hred]
      rcases ihfin with h | ⟨j, hj, hfj⟩
      · exact Or.inr ⟨q, le_refl q, h⟩
      · exact Or.inr ⟨j, by rw [ham2q] at hj; omega, hfj⟩
    · rw [hred]; exact ihff
    · intro s hz
      rw [hred]
      have hcc : cin ≠ Cell.anc q := Cell.freshBelow_ne_anc hcf (le_refl q)
      have hac : a ≠ Cell.anc q := Cell.freshBelow_ne_anc hafr (le_refl q)
      have hctl2 : ∀ c, control = some c → c ≠ cin ∧ c ≠ a ∧ c ≠ Cell.anc q := by
        intro c hc
        obtain ⟨hc1, hc2, hc3⟩ := hctl c hc
        exact ⟨hc2, fun h => hc1 (by simp [h]), Cell.freshBelow_ne_anc hc3 (le_refl q)⟩
      -- the effective addend bit of this column
      set u : Bool := if x % 2 = 0 then false else ctrlVal control s with hu
      set s1 : CState := applyGates
        (if x % 2 = 0 then half_adder cin a (Cell.anc q)
         else addOneColumn control cin a (Cell.anc q)) s with hs1
      have h_s1 : ∀ d : Cell,
          s1 d = if d = a then ((s a).xor (s cin)).xor u
            else if d = Cell.anc q then
              (s (Cell.anc q)).xor ((((s cin).xor u) && ((s a).xor u)).xor u)
            else if d = cin then (s cin).xor u
            else s d := by
        intro d
        by_cases hbit : x % 2 = 0
        · rw [hs1, if_pos hbit]
          have h0 : u = false := by rw [hu, if_pos hbit]
          rw [half_adder_apply cin a (Cell.anc q) s hca hcc hac d, h0]
          by_cases hda : d = a
          · simp [hda]
          · by_cases hdq : d = Cell.anc q
            · simp [hda, hdq]
            · by_cases hdc : d = cin <;> simp [hda, hdq, hdc]
        · rw [hs1, if_neg hbit]
          have h0 : u = ctrlVal control s := by rw [hu, if_neg hbit]
          rw [addOneColumn_apply control cin a (Cell.anc q) s hca hcc hac hctl2 d, h0]
      have hs1a : bv (s1 a) = (bv (s a) + bv (s cin) + bv u) % 2 := by
        rw [h_s1 a, if_pos rfl, bv_sum3]
      have hs1cout : bv (s1 (Cell.anc q)) = (bv (s a) + bv (s cin) + bv u) / 2 := by
        rw [h_s1 (Cell.anc q), if_neg (Ne.symm hac), if_pos rfl,
          hz q (le_refl q)]
        simp only [Bool.false_xor]
        exact bv_carry_u _ _ _
      have hs1other : ∀ d : Cell, d ≠ a → d ≠ Cell.anc q → d ≠ cin → s1 d = s d := by
        intro d h1 h2 h3
        rw [h_s1 d, if_neg h1, if_neg h2, if_neg h3]
      have hctrlsame : ctrlVal control s1 = ctrlVal control s := by
        cases hc : control with
        | none => rfl
        | some c =>
          obtain ⟨h1, h2, h3⟩ := hctl2 c hc
          simp only [ctrlVal]
          exact hs1other c h2 h3 h1
      have hz1 : zeroAbove am2.qubits s1 := by
        intro i hi
        rw [ham2q] at hi
        rw [hs1other (Cell.anc i)
          (Ne.symm (Cell.freshBelow_ne_anc hafr (by omega)))
          (by simp; omega)
          (Ne.symm (Cell.freshBelow_ne_anc hcf (by omega)))]
        exact hz i (by omega)
      obtain ⟨ihV, ihFR, ihZ⟩ := ihsem s1 hz1
      have hA1 : regVal s1 A = regVal s A := by
        apply regVal_congr
        intro c hc
        exact hs1other c (fun h => haA (h ▸ hc))
          (Cell.freshBelow_ne_anc (cellsBelow_mem hbel hc) (le_refl q))
          (fun h => hcinA' (h ▸ hc))
      have hfina : a ≠ r.2.1 := by
        rcases ihfin with h | ⟨j, hj, hfj⟩
        · rw [h]; exact hac
        · rw [hfj]
          exact Cell.freshBelow_ne_anc hafr (by rw [ham2q] at hj; omega)
      have hs2a : applyGates r.1 s1 a = s1 a := by
        apply ihFR a haA hac hfina
        exact Cell.freshBelow_outsideRange (Cell.freshBelow_mono (by omega) hafr)
      have happ : applyGates ((if x % 2 = 0 then half_adder cin a (Cell.anc q)
          else addOneColumn control cin a (Cell.anc q)) ++ r.1) s =
          applyGates r.1 s1 := by
        rw [applyGates_append, hs1]
      -- bit-splitting of the addend
      have hsplit : (x % 2 ^ (A.length + 1)).toNat =
          (x % 2).toNat + 2 * ((x / 2) % 2 ^ A.length).toNat := by
        have h1 := int_emod_two_pow_succ x A.length
        have h2 : 0 ≤ x % 2 := Int.emod_nonneg x (by norm_num)
        have h3 : 0 ≤ x / 2 % 2 ^ A.length := Int.emod_nonneg _ (by positivity)
        omega
      have hbvu : ∀ hcv : ctrlVal control s = true, bv u = (x % 2).toNat := by
        intro hcv
        by_cases hbit : x % 2 = 0
        · rw [hu, if_pos hbit, hbit]
          rfl
        · rw [hu, if_neg hbit, hcv]
          have h2 : 0 ≤ x % 2 := Int.emod_nonneg x (by norm_num)
          have h3 : x % 2 < 2 := Int.emod_lt_of_pos x (by norm_num)
          simp [bv]
          omega
      have hbvu0 : ctrlVal control s = false → bv u = 0 := by
        intro hcv
        by_cases hbit : x % 2 = 0
        · rw [hu, if_pos hbit]; rfl
        · rw [hu, if_neg hbit, hcv]; rfl
      refine ⟨?_, ?_, ?_⟩
      · rw [happ, regVal_cons, regVal_cons s a A, hs2a, ihV, hA1, hctrlsame,
          hs1a, hs1cout]
        by_cases hcv : ctrlVal control s = true
        · rw [hbvu hcv, if_pos hcv, if_pos hcv]
          simp only [List.length_cons]
          rw [hsplit]
          exact add_column_mod2 ((x % 2).toNat) (bv (s a)) (bv (s cin))
            ((x / 2 % 2 ^ A.length).toNat) (regVal s A) A.length
            (by
              have h2 : 0 ≤ x % 2 := Int.emod_nonneg x (by norm_num)
              have h3 : x % 2 < 2 := Int.emod_lt_of_pos x (by norm_num)
              omega) (bv_le_one _) (bv_le_one _)
        · have hcv' : ctrlVal control s = false := by
            revert hcv; cases ctrlVal control s <;> simp
          rw [hbvu0 hcv', if_neg hcv, if_neg hcv]
          simp only [List.length_cons, Nat.add_zero]
          exact add_column2_mod (bv (s a)) (bv (s cin)) (regVal s A) A.length
            (bv_le_one _) (bv_le_one _)
      · intro c hcA hccin hcfin hcout
        simp only [List.mem_cons, not_or] at hcA
        obtain ⟨hc1, hc2⟩ := hcA
        rw [happ, ihFR c hc2 ?_ hcfin
          (Cell.outsideRange_mono_left (by rw [ham2q]; omega) hcout)]
        · refine hs1other c hc1 ?_ hccin
          refine Cell.outsideRange_ne_anc hcout (le_refl q) ?_
          rw [hqout]; omega
        · refine Cell.outsideRange_ne_anc hcout (le_refl q) ?_
          rw [hqout]; omega
      · rw [happ]; exact ihZ

/-- Top-level behaviour of `add_classical_int`: for every classical
addend `x` (of either sign) passing the bit-length guard, `A` gains
`x mod 2^|A|` when the optional control reads 1 (and is unchanged when
it reads 0); nothing outside `A` and the scratch ancillas changes and no
ancilla leaks. -/
theorem add_classical_int_spec (x : Int) (A : List Cell) (am : AncillaManager)
    (control : Option Cell)
    (hA : A.Nodup) (hbel : cellsBelow am.qubits A = true)
    (hctrl : ∀ c, control = some c → c ∉ A ∧ c.freshBelow am.qubits = true)
    (hsize : intBitLength x ≤ A.length) :
    ∃ gs am2, add_classical_int x A am control = .ok (gs, am2) ∧
      am2.qubits = am.qubits + A.length + 1 ∧ am2.nActive = am.nActive ∧
      supportedOnly gs = true ∧
      ∀ s : CState, zeroAbove am.qubits s →
        regVal (applyGates gs s) A =
          (regVal s A +
            (if ctrlVal control s then (x % 2 ^ A.length).toNat else 0)) %
            2 ^ A.length ∧
        (∀ c : Cell, c ∉ A → Cell.outsideRange am.qubits am2.qubits c →
          applyGates gs s c = s c) ∧
        zeroAbove am2.qubits (applyGates gs s) := by
  have hguard : ¬ intBitLength x > A.length := by omega
  set cin : Cell := am.new.1 with hcin
  set am1 : AncillaManager := am.new.2 with ham1
  have ham1q : am1.qubits = am.qubits + 1 := rfl
  have hcinanc : cin = Cell.anc am.qubits := rfl
  have hcinA : cin ∉ A := by
    rw [hcinanc]; exact anc_not_mem_of_cellsBelow hbel (le_refl am.qubits)
  have hcf : cin.freshBelow am1.qubits = true := by
    rw [hcinanc]; simp [Cell.freshBelow, ham1q]
  have hbel1 : cellsBelow am1.qubits A = true := cellsBelow_mono (by omega) hbel
  have hctrl1 : ∀ c, control = some c →
      c ∉ A ∧ c ≠ cin ∧ c.freshBelow am1.qubits = true := by
    intro c hc
    obtain ⟨h1, h2⟩ := hctrl c hc
    refine ⟨h1, ?_, Cell.freshBelow_mono (by omega) h2⟩
    rw [hcinanc]
    exact Cell.freshBelow_ne_anc h2 (le_refl _)
  obtain ⟨hq, ha, hsup, hfincase, hfinfr, hval⟩ :=
    addClassicalLoop_spec A x control cin am1 hA hbel1 hcinA hcf hctrl1
  set r := addClassicalLoop x A control cin am1 with hr
  refine ⟨r.1, r.2.2.discard [r.2.1], ?_, ?_, ?_, hsup, ?_⟩
  · simp only [add_classical_int, gt_iff_lt, if_neg hguard]
  · rw [AncillaManager.discard_qubits, hq, ham1q]; omega
  · rw [AncillaManager.discard_active, ha, ham1, AncillaManager.new_active]
    simp
  · intro s hz
    have hz1 : zeroAbove am1.qubits s := fun i hi => hz i (by omega)
    obtain ⟨hv, hfr2, hz2⟩ := hval s hz1
    have hcin0 : s cin = false := by
      rw [hcinanc]; exact hz am.qubits (le_refl _)
    have hqlb : am.qubits < r.2.2.qubits := by rw [hq, ham1q]; omega
    refine ⟨?_, ?_, ?_⟩
    · rw [hv, hcin0]
      simp [bv]
    · intro c hcA hcout
      rw [AncillaManager.discard_qubits] at hcout
      have hccin : c ≠ cin := by
        rw [hcinanc]
        exact Cell.outsideRange_ne_anc hcout (le_refl _) hqlb
      have hcfin : c ≠ r.2.1 := by
        rcases hfincase with hcase | ⟨j, hj, hjeq⟩
        · rw [hcase]; exact hccin
        · rw [hjeq]
          rw [hjeq] at hfinfr
          have hjlt : j < r.2.2.qubits := by
            simpa [Cell.freshBelow] using hfinfr
          exact Cell.outsideRange_ne_anc hcout (by rw [ham1q] at hj; omega) hjlt
      exact hfr2 c hcA hccin hcfin
        (Cell.outsideRange_mono_left (by omega) hcout)
    · intro i hi
      rw [AncillaManager.discard_qubits] at hi
      exact hz2 i hi

/-- C10: `add_classical_int` implements two's-complement subtraction for
negative constants: for every register `A`, every negative integer `x`
whose absolute-value bit-length is at most `|A|`, and every initial value
of `A` with zero ancillas, the produced program leaves `A` holding
`(A + x) mod 2^|A|` (as integers), touching nothing else. -/
theorem add_classical_int_twos_complement (x : Int) (A : List Cell)
    (am : AncillaManager) (hx : x < 0) (hA : A.Nodup)
    (hbel : cellsBelow am.qubits A = true) (hsize : intBitLength x ≤ A.length) :
    ∃ gs am2, add_classical_int x A am none = .ok (gs, am2) ∧
      am2.nActive = am.nActive ∧ supportedOnly gs = true ∧
      ∀ s : CState, zeroAbove am.qubits s →
        (regVal (applyGates gs s) A : Int) =
          ((regVal s A : Int) + x) % 2 ^ A.length ∧
        (∀ c : Cell, c ∉ A → Cell.outsideRange am.qubits am2.qubits c →
          applyGates gs s c = s c) := by
  obtain ⟨gs, am2, hok, _, hact, hsup, hrun⟩ :=
    add_classical_int_spec x A am none hA hbel (by intro c hc; cases hc) hsize
  refine ⟨gs, am2, hok, hact, hsup, ?_⟩
  intro s hz
  obtain ⟨hv, hfr, _⟩ := hrun s hz
  refine ⟨?_, hfr⟩
  have h0 : (0:Int) < 2 ^ A.length := by positivity
  have hm0 : 0 ≤ x % 2 ^ A.length := Int.emod_nonneg x (by positivity)
  have hsplit : (regVal s A : Int) + x =
      ((regVal s A : Int) + x % 2 ^ A.length) + 2 ^ A.length * (x / 2 ^ A.length) := by
    linear_combination - Int.ediv_add_emod x (2 ^ A.length)
  rw [hsplit, Int.add_mul_emod_self_left, hv]
  have hctrl : ctrlVal none s = true := rfl
  rw [hctrl, if_pos rfl]
  push_cast [Int.toNat_of_nonneg hm0]
  rfl

/-- Witness for C10: subtracting 3 from a 3-bit register succeeds and
yields a supported program. -/
theorem add_classical_int_twos_complement_witness :
    ∃ gs am2, add_classical_int (-3) [Cell.x 0, Cell.x 1, Cell.x 2]
        AncillaManager.init none = .ok (gs, am2) ∧ supportedOnly gs = true := by
  obtain ⟨gs, am2, h1, _, h3, _⟩ :=
    add_classical_int_twos_complement (-3) [Cell.x 0, Cell.x 1, Cell.x 2]
      AncillaManager.init (by decide) (by decide) (by decide)
      (le_trans (bit_length_le _ 3 (by norm_num)) (by norm_num))
  exact ⟨gs, am2, h1, h3⟩
